import Mathlib

/-!
Verification of the vim-engine editing core against its specification.

Python text is embedded as `List Char`; identifiers, modes, labels and key
tokens as `String`. Machine integers are embedded as `Int` (cursor rows and
columns, undo indices) or `Nat` (versions, counters, lengths) as the source
uses them. Fallible operations return `Except`, with the pre-raise state
returned alongside the error so that "no mutation before the raise" is a
provable statement rather than a modelling artifact.
-/

deriving instance DecidableEq for Except

namespace VimEngine

/-- The line-boundary characters of Python `str.splitlines`: `\n`, `\r`
(also pairing as `\r\n`), `\v`, `\f`, the separators `\x1c`-`\x1e`,
`\x85`, and U+2028/U+2029. -/
def isLineBoundary (c : Char) : Bool :=
  c = '\n' ∨ c = '\r' ∨ c = '\x0b' ∨ c = '\x0c' ∨ c = '\x1c' ∨
    c = '\x1d' ∨ c = '\x1e' ∨ c = '\x85' ∨ c = '\u2028' ∨ c = '\u2029'

/-- Worker for Python `str.splitlines`: `acc` holds the reversed characters
of the line being read. A line-boundary character (with `\r\n` counting as
one boundary) emits the accumulated line; a boundary at the end of the
text emits no trailing empty line. -/
def splitlinesGo (acc : List Char) : List Char → List (List Char)
  | [] => [acc.reverse]
  | ['\r', '\n'] => [acc.reverse]
  | '\r' :: '\n' :: c :: t => acc.reverse :: splitlinesGo [] (c :: t)
  | [c] =>
    if isLineBoundary c then [acc.reverse] else splitlinesGo (c :: acc) []
  | c :: c2 :: t =>
    if isLineBoundary c then acc.reverse :: splitlinesGo [] (c2 :: t)
    else splitlinesGo (c :: acc) (c2 :: t)

/-- Python `str.splitlines`: the list of lines of the text, with line
boundaries removed and no trailing empty line for a trailing boundary. -/
def splitlines (s : List Char) : List (List Char) :=
  match s with
  | [] => []
  | _ :: _ => splitlinesGo [] s

/-- Buffer module `_flatten_lines`: join lines with a newline. -/
def flattenLines (lines : List (List Char)) : List Char :=
  List.intercalate ['\n'] lines

/-- Text whose only line-boundary characters are `\n`, the join character
of the buffer's flattened representation. -/
def onlyLFBoundaries (t : List Char) : Prop :=
  ∀ c ∈ t, isLineBoundary c = true → c = '\n'

instance (t : List Char) : Decidable (onlyLFBoundaries t) := by
  unfold onlyLFBoundaries; infer_instance

/-- A document line as produced by `splitlines`: free of line boundaries. -/
def lineOk (l : List Char) : Prop :=
  ∀ c ∈ l, isLineBoundary c = false

instance (l : List Char) : Decidable (lineOk l) := by
  unfold lineOk; infer_instance

/-- The shape every document built through `from_text` has: at least one
line, every line free of line boundaries. -/
def docLinesOk (L : List (List Char)) : Prop :=
  L ≠ [] ∧ ∀ l ∈ L, lineOk l

instance (L : List (List Char)) : Decidable (docLinesOk L) := by
  unfold docLinesOk; infer_instance

/-- `buffer/document.py` `BufferDocument`: versioned list-of-lines storage. -/
structure BufferDocument where
  lines : List (List Char)
  version : Nat
  dirty : Bool
deriving Repr, DecidableEq

/-- Python `text.endswith "\n"` on our character lists. -/
def endsWithLF (t : List Char) : Bool :=
  t.getLast? = some '\n'

/-- `BufferDocument.from_text`: splitlines, with an empty text yielding one
empty line and a trailing newline yielding a trailing empty line; the
produced document always has `version = 0` and `dirty = false`. -/
def BufferDocument.from_text (t : List Char) : BufferDocument :=
  let lines := splitlines t
  let lines :=
    if lines = [] then [[]]
    else if endsWithLF t then lines ++ [[]]
    else lines
  ⟨lines, 0, false⟩

/-- `BufferDocument.line_count`. -/
def BufferDocument.line_count (d : BufferDocument) : Nat :=
  d.lines.length

/-- `BufferDocument.get_line` (total with a default, used only in bounds). -/
def BufferDocument.get_line (d : BufferDocument) (i : Nat) : List Char :=
  d.lines.getD i []

/-- Cursor `(row, column)` as a pair of Python integers. -/
abbrev Cursor := Int × Int

/-- Python tuple strict comparison on cursors. -/
def cursorLt (a b : Cursor) : Bool :=
  a.1 < b.1 ∨ (a.1 = b.1 ∧ a.2 < b.2)

/-- `buffer/sync.py` `BufferValidationError` payload. -/
structure BufferValidationError where
  message : String
  cursor : Cursor
deriving Repr, DecidableEq

/-- `buffer/validation.py` `ensure_cursor`: row must lie in
`[0, line_count)` and the column in `[0, len(line)]`, else a validation
error is raised; the cursor itself is returned on success. -/
def ensure_cursor (d : BufferDocument) (c : Cursor) :
    Except BufferValidationError Cursor :=
  if c.1 < 0 ∨ c.1 ≥ (d.line_count : Int) then
    .error ⟨"Row out of range", c⟩
  else
    let line := d.get_line c.1.toNat
    if c.2 < 0 ∨ c.2 > (line.length : Int) then
      .error ⟨"Column out of range", c⟩
    else
      .ok c

/-- Whether a cursor passes `ensure_cursor` for a document. -/
def validCursor (d : BufferDocument) (c : Cursor) : Prop :=
  0 ≤ c.1 ∧ c.1 < (d.line_count : Int) ∧
    0 ≤ c.2 ∧ c.2 ≤ ((d.get_line c.1.toNat).length : Int)

instance (d : BufferDocument) (c : Cursor) : Decidable (validCursor d c) := by
  unfold validCursor; infer_instance

/-- `buffer/state.py` selection: an (anchor, cursor) pair. -/
abbrev Selection := Cursor × Cursor

/-- `buffer/state.py` `BufferState`. -/
structure BufferState where
  cursor : Cursor
  selection : Option Selection
  active_register : String
  last_change_tick : Nat
deriving Repr, DecidableEq

/-- Default `BufferState()`. -/
def BufferState.default : BufferState :=
  ⟨(0, 0), none, "\"", 0⟩

/-- `buffer/registers.py` `RegisterValue`. -/
structure RegisterValue where
  text : List Char
  type : String
deriving Repr, DecidableEq

/-- `RegisterBank` embedded as an insertion-ordered association list (the
Python dict); constructed with the unnamed register present. -/
structure RegisterBank where
  registers : List (String × RegisterValue)
deriving Repr, DecidableEq

/-- Fresh `RegisterBank()`. -/
def RegisterBank.default : RegisterBank :=
  ⟨[("\"", ⟨[], "character"⟩)]⟩

/-- Python-dict assignment on an association list: update in place when the
key exists, else append. -/
def dictSet {α : Type} [DecidableEq α] {β : Type}
    (l : List (α × β)) (k : α) (v : β) : List (α × β) :=
  match l with
  | [] => [(k, v)]
  | (k2, v2) :: rest =>
    if k2 = k then (k, v) :: rest else (k2, v2) :: dictSet rest k v

/-- `RegisterBank.get`: defaults to an empty character value. -/
def RegisterBank.get (bank : RegisterBank) (name : String) : RegisterValue :=
  match bank.registers.lookup name with
  | some v => v
  | none => ⟨[], "character"⟩

/-- `RegisterBank.set`: store, mirroring into the unnamed register. -/
def RegisterBank.set (bank : RegisterBank) (name : String) (v : RegisterValue) :
    RegisterBank :=
  let regs := dictSet bank.registers name v
  if name ≠ "\"" then ⟨dictSet regs "\"" v⟩ else ⟨regs⟩

/-- `buffer/undo.py` `UndoEntry`. -/
structure UndoEntry where
  label : String
  before_text : List Char
  after_text : List Char
  cursor_before : Cursor
  cursor_after : Cursor
deriving Repr, DecidableEq

/-- `buffer/undo.py` `UndoTimeline`: linear entry list plus the Python
integer index (initially `-1`). -/
structure UndoTimeline where
  entries : List UndoEntry
  index : Int
deriving Repr, DecidableEq

/-- Fresh `UndoTimeline()`. -/
def UndoTimeline.default : UndoTimeline :=
  ⟨[], -1⟩

/-- `UndoTimeline.push`: truncate any redo tail beyond the current index,
append, and point the index at the new last entry. -/
def UndoTimeline.push (tl : UndoTimeline) (entry : UndoEntry) : UndoTimeline :=
  let entries :=
    if tl.index < (tl.entries.length : Int) - 1 then
      tl.entries.take (tl.index + 1).toNat
    else
      tl.entries
  let entries := entries ++ [entry]
  ⟨entries, (entries.length : Int) - 1⟩

/-- `UndoTimeline.can_undo`. -/
def UndoTimeline.can_undo (tl : UndoTimeline) : Bool :=
  tl.index ≥ 0

/-- `UndoTimeline.can_redo`. -/
def UndoTimeline.can_redo (tl : UndoTimeline) : Bool :=
  tl.index < (tl.entries.length : Int) - 1

/-- `UndoTimeline.undo`: return the entry at the index and step back, or
`none` at the start of the timeline. -/
def UndoTimeline.undo (tl : UndoTimeline) : Option UndoEntry × UndoTimeline :=
  if tl.can_undo then
    (tl.entries.get? tl.index.toNat, ⟨tl.entries, tl.index - 1⟩)
  else
    (none, tl)

/-- `UndoTimeline.redo`: step forward and return that entry, or `none` at
the end of the timeline. -/
def UndoTimeline.redo (tl : UndoTimeline) : Option UndoEntry × UndoTimeline :=
  if tl.can_redo then
    (tl.entries.get? (tl.index + 1).toNat, ⟨tl.entries, tl.index + 1⟩)
  else
    (none, tl)

/-- `buffer/buffer.py` `Buffer`: façade over document, state, registers and
undo timeline. -/
structure Buffer where
  name : String
  document : BufferDocument
  state : BufferState
  registers : RegisterBank
  undo : UndoTimeline
deriving Repr, DecidableEq

/-- `Buffer.from_text`. -/
def Buffer.from_text (t : List Char) (name : String := "default") : Buffer :=
  ⟨name, BufferDocument.from_text t, BufferState.default,
    RegisterBank.default, UndoTimeline.default⟩

/-- `_offset_for_cursor` over natural row and column: each earlier line
contributes its length plus one newline. -/
def offsetForCursorN : List (List Char) → Nat → Nat → Nat
  | _, 0, col => col
  | [], _ + 1, col => col
  | l :: ls, row + 1, col => l.length + 1 + offsetForCursorN ls row col

/-- `buffer/buffer.py` `_offset_for_cursor` (used on validated cursors). -/
def offsetForCursor (d : BufferDocument) (c : Cursor) : Nat :=
  offsetForCursorN d.lines c.1.toNat c.2.toNat

/-- `_cursor_from_offset` over lines and a natural offset, including the
final clamp to the end of the last line. -/
def cursorFromOffsetN : List (List Char) → Nat → Nat × Nat
  | [], o => (0, o)
  | l :: ls, o =>
    if o ≤ l.length then (0, o)
    else
      match ls with
      | [] => (0, l.length)
      | _ :: _ =>
        let p := cursorFromOffsetN ls (o - (l.length + 1))
        (p.1 + 1, p.2)

/-- `buffer/buffer.py` `_cursor_from_offset`. -/
def cursorFromOffset (d : BufferDocument) (o : Nat) : Cursor :=
  let p := cursorFromOffsetN d.lines o
  ((p.1 : Int), (p.2 : Int))

/-- `buffer/buffer.py` `BufferDelta`. -/
structure BufferDelta where
  version : Nat
  text : List Char
  cursor : Cursor
  selection : Option Selection
  label : String
deriving Repr, DecidableEq

/-- `Buffer.replace_range`: validate both cursors, flatten, substitute the
range, rebuild the document via `from_text`, move the cursor to the end of
the inserted text, record the change tick, and push an undo entry. The
possibly-updated buffer is returned next to the outcome; on a validation
error the buffer is the unmutated input, mirroring that the source raises
before any mutation. -/
def Buffer.replace_range (b : Buffer) (start stop : Cursor) (text : List Char)
    (label : String) : Except BufferValidationError BufferDelta × Buffer :=
  match ensure_cursor b.document start with
  | .error e => (.error e, b)
  | .ok start =>
    match ensure_cursor b.document stop with
    | .error e => (.error e, b)
    | .ok stop =>
      let before_text := flattenLines b.document.lines
      let start_offset := offsetForCursor b.document start
      let end_offset := offsetForCursor b.document stop
      let new_text :=
        before_text.take start_offset ++ text ++ before_text.drop end_offset
      let document := BufferDocument.from_text new_text
      let cursor := cursorFromOffset document (start_offset + text.length)
      let state :=
        { b.state with cursor := cursor, last_change_tick := document.version }
      let entry : UndoEntry := ⟨label, before_text, new_text, start, cursor⟩
      let b2 : Buffer :=
        { b with document := document, state := state, undo := b.undo.push entry }
      (.ok ⟨document.version, new_text, cursor, state.selection, label⟩, b2)

/-- `Buffer.insert_text` at an explicit cursor (default: the buffer cursor). -/
def Buffer.insert_text (b : Buffer) (text : List Char)
    (cursor : Option Cursor := none) :
    Except BufferValidationError BufferDelta × Buffer :=
  let position := cursor.getD b.state.cursor
  b.replace_range position position text "insert_text"

/-- `Buffer.delete_range`. -/
def Buffer.delete_range (b : Buffer) (start stop : Cursor) :
    Except BufferValidationError BufferDelta × Buffer :=
  b.replace_range start stop [] "delete_range"

/-- `Buffer.get_text_range`: validate, reorder, and slice the flattened
text between the two cursor offsets. -/
def Buffer.get_text_range (b : Buffer) (start stop : Cursor) :
    Except BufferValidationError (List Char) :=
  match ensure_cursor b.document start with
  | .error e => .error e
  | .ok start =>
    match ensure_cursor b.document stop with
    | .error e => .error e
    | .ok stop =>
      let p := if cursorLt stop start then (stop, start) else (start, stop)
      let text := flattenLines b.document.lines
      let start_offset := offsetForCursor b.document p.1
      let end_offset := offsetForCursor b.document p.2
      .ok ((text.take end_offset).drop start_offset)

/-- `modes/operator_pipeline.py` `ExecutionPlan`. -/
structure ExecutionPlan where
  operator_id : String
  motion_id : Option String
  count : Option Nat
  register_name : String
  raw_input : List String
deriving Repr, DecidableEq

/-- `modes/operator_pipeline.py` `OperatorDraft`. -/
structure OperatorDraft where
  count : Option Nat
  motion : Option String
  operator : Option String
  raw_keys : List String
deriving Repr, DecidableEq

/-- Fresh `OperatorDraft()`. -/
def OperatorDraft.default : OperatorDraft :=
  ⟨none, none, none, []⟩

/-- A key token whose characters are all ASCII. On such tokens the
embeddings `isDigitKey` and `digitsToNat` below agree exactly with
Python's `str.isdigit` and `int`; outside ASCII, `str.isdigit` also
accepts characters such as `'²'` (where `int` raises) and `'٣'` (where
`int` returns 3), so the operator-pipeline theorems confine key
sequences to ASCII tokens. -/
def asciiKey (s : String) : Bool :=
  s.toList.all fun c => c.toNat < 128

/-- Python `str.isdigit` on an ASCII string: nonempty and every character
in `'0'`-`'9'`. Faithful only on ASCII (see `asciiKey`). -/
def isDigitKey (s : String) : Bool :=
  s ≠ "" ∧ s.toList.all Char.isDigit

/-- Python `int` on a nonempty string of ASCII decimal digits, where it is
total and returns the decimal value. Faithful only on ASCII digit strings
(see `asciiKey`). -/
def digitsToNat (s : String) : Nat :=
  s.toList.foldl (fun n c => n * 10 + c.toNat - '0'.toNat) 0

/-- `CountParser.parse`: consume the leading run of digit tokens into the
draft count (left untouched when there are no digits) and append them to
the raw keys. -/
def countParse (keys : List String) (draft : OperatorDraft) :
    List String × OperatorDraft :=
  let digits := keys.takeWhile isDigitKey
  if digits = [] then (keys, draft)
  else
    (keys.dropWhile isDigitKey,
      { draft with
        count := some (digitsToNat (String.join digits))
        raw_keys := draft.raw_keys ++ digits })

/-- `MotionParser.parse`: treat the first remaining token as the motion. -/
def motionParse (keys : List String) (draft : OperatorDraft) :
    List String × OperatorDraft :=
  match keys with
  | [] => ([], draft)
  | k :: rest =>
    (rest, { draft with motion := some k, raw_keys := draft.raw_keys ++ [k] })

/-- `OperatorResolver.resolve`: no keys and no motion yields no plan; the
first remaining key (else the draft operator) becomes the operator, and a
missing operator yields no plan. -/
def operatorResolve (keys : List String) (draft : OperatorDraft) :
    Option ExecutionPlan :=
  if keys = [] ∧ draft.motion = none then none
  else
    let op := match keys with | k :: _ => some k | [] => draft.operator
    match op with
    | none => none
    | some o =>
      some ⟨o, draft.motion, draft.count, "\"", draft.raw_keys ++ keys⟩

/-- `OperatorPipeline.parse`: run the three stages on a fresh draft. -/
def pipelineParse (keys : List String) : Option ExecutionPlan :=
  let s1 := countParse keys OperatorDraft.default
  let s2 := motionParse s1.1 s1.2
  operatorResolve s2.1 s2.2

/-- Tokens left over after the count and motion stages (what stage 3 is
called with). -/
def remainingAfterStages (keys : List String) : List String :=
  (motionParse (countParse keys OperatorDraft.default).1
    (countParse keys OperatorDraft.default).2).1

/-- Draft produced by the count and motion stages on a fresh draft. -/
def draftAfterStages (keys : List String) : OperatorDraft :=
  (motionParse (countParse keys OperatorDraft.default).1
    (countParse keys OperatorDraft.default).2).2

/-- `modes/base_mode.py` `KeyInput`. -/
structure KeyInput where
  key : String
  modifiers : List String
  text : Option String
deriving Repr, DecidableEq

/-- `modes/base_mode.py` `ModeResult`. -/
structure ModeResult where
  consumed : Bool
  switch_to : Option String
  status : String
  message : Option String
  timeout_ms : Option Nat
deriving Repr, DecidableEq

/-- `CommandMode._handle_text_input`: Escape cancels back to Normal, Enter
submits (emitting the command text on the bus), Backspace pops the last
typed element when any exist, printable text is appended, and anything else
is an unconsumed miss. Returns the updated typed-text list, the result,
and the names of events emitted on the bus. -/
def handleTextInput (key : KeyInput) (typed : List String) :
    List String × ModeResult × List String :=
  if key.key = "ESC" ∨ key.key = "<Esc>" then
    ([], ⟨true, some "normal", "ok", some "command_cancel", none⟩, [])
  else if key.key = "ENTER" ∨ key.key = "RETURN" then
    ([], ⟨true, some "normal", "command_submit", some (String.join typed), none⟩,
      ["command.submit"])
  else if key.key = "BACKSPACE" ∧ typed ≠ [] then
    (typed.dropLast, ⟨true, none, "editing", none, none⟩, [])
  else
    match key.text with
    | some t =>
      if t = "" then (typed, ⟨false, none, "miss", some "unhandled", none⟩, [])
      else (typed ++ [t], ⟨true, none, "editing", none, none⟩, [])
    | none => (typed, ⟨false, none, "miss", some "unhandled", none⟩, [])

/-- Python-dict `pop(key, None)` on an association list. -/
def dictRemove {α : Type} [DecidableEq α] {β : Type}
    (l : List (α × β)) (k : α) : List (α × β) :=
  match l with
  | [] => []
  | (k2, v) :: rest =>
    if k2 = k then rest else (k2, v) :: dictRemove rest k

/-- `modes/mode_manager.py` `PendingTimeout`; the monotonic clock is
embedded as a natural number supplied by the caller. -/
structure PendingTimeout where
  deadline : Nat
  timeout_ms : Nat
  generation : Nat
deriving Repr, DecidableEq

/-- The timer-and-mode slice of `ModeManager` state: registered mode names,
active mode, pending timers keyed by mode name, and the generation
counter. Mode-internal state and the shared context live in the mode
objects, outside this slice. -/
structure ModeManagerState where
  modes : List String
  active : Option String
  pending_timeouts : List (String × PendingTimeout)
  timer_counter : Nat
deriving Repr, DecidableEq

/-- Inert result returned when a timer fire request is stale. -/
def timeoutResult : ModeResult :=
  ⟨false, none, "timeout", none, none⟩

/-- `ModeManager.arm_timeout`: always allocates a fresh generation. -/
def armTimeout (st : ModeManagerState) (mode : String) (timeout_ms : Nat)
    (now : Nat) : ModeManagerState :=
  let counter := st.timer_counter + 1
  { st with
    timer_counter := counter
    pending_timeouts :=
      dictSet st.pending_timeouts mode
        ⟨now + timeout_ms, timeout_ms, counter⟩ }

/-- `ModeManager.cancel_timeout`. -/
def cancelTimeout (st : ModeManagerState) (mode : String) : ModeManagerState :=
  { st with pending_timeouts := dictRemove st.pending_timeouts mode }

/-- `ModeManager.switch_mode`: unknown target raises (before any mutation);
switching to the active mode is a no-op; otherwise the outgoing mode's
timer is cancelled, the active mode is replaced, and the incoming mode's
timer is cancelled. The modes' `on_exit` and `on_enter` hooks act on mode
objects outside this state slice. -/
def switchMode (st : ModeManagerState) (name : String) :
    Except String Unit × ModeManagerState :=
  if name ∉ st.modes then (.error "Unknown mode", st)
  else
    let previous :=
      match st.active with
      | some a => if a ∈ st.modes then some a else none
      | none => none
    if previous = some name then (.ok (), st)
    else
      let st1 :=
        match previous with
        | some p => cancelTimeout st p
        | none => st
      let st2 := { st1 with active := some name }
      (.ok (), cancelTimeout st2 name)

/-- `ModeManager._after_mode_result`: a truthy `timeout_ms` arms a fresh
timer for the mode, anything else cancels; then any requested mode switch
is performed. -/
def afterModeResult (now : Nat) (st : ModeManagerState) (mode : String)
    (r : ModeResult) : Except String ModeResult × ModeManagerState :=
  let st1 :=
    match r.timeout_ms with
    | some t => if t ≠ 0 then armTimeout st mode t now else cancelTimeout st mode
    | none => cancelTimeout st mode
  match r.switch_to with
  | some n =>
    match switchMode st1 n with
    | (.ok _, st2) => (.ok r, st2)
    | (.error e, st2) => (.error e, st2)
  | none => (.ok r, st1)

/-- `ModeManager._trigger_timeout` for a fire request carrying `gen`. The
mode's `handle_timeout` is the abstract `handler`. The third component is
an observation recording which generation's handler was invoked (`none`
when the request was inert). -/
def triggerTimeout (handler : String → ModeResult) (now : Nat)
    (st : ModeManagerState) (mode : String) (gen : Nat) :
    Except String ModeResult × ModeManagerState × Option Nat :=
  match st.pending_timeouts.lookup mode with
  | none => (.ok timeoutResult, st, none)
  | some timer =>
    if timer.generation ≠ gen then (.ok timeoutResult, st, none)
    else
      let st1 := cancelTimeout st mode
      if mode ∉ st1.modes then (.ok timeoutResult, st1, none)
      else
        let r := handler mode
        let (r2, st2) := afterModeResult now st1 mode r
        (r2, st2, some gen)

/-- `ModeManager.force_timeout` for an explicit mode: expire its pending
timer (if any) immediately, using the stored generation. Returns the
per-mode results, the final state, and the generations whose handlers
fired. -/
def forceTimeoutOne (handler : String → ModeResult) (now : Nat)
    (st : ModeManagerState) (mode : String) :
    List (String × Except String ModeResult) × ModeManagerState × List Nat :=
  match st.pending_timeouts.lookup mode with
  | none => ([], st, [])
  | some timer =>
    let (r, st2, fired) := triggerTimeout handler now st mode timer.generation
    ([(mode, r)], st2, fired.toList)

/-- `ModeManager.force_timeout()` with no mode: expire every pending timer
from a snapshot of the timer table, threading state; an exception from a
handler's switch request aborts the remaining fires as in the source. -/
def forceTimeoutAll (handler : String → ModeResult) (now : Nat) :
    List (String × PendingTimeout) → ModeManagerState →
    Except String (List (String × ModeResult)) × ModeManagerState × List Nat
  | [], st => (.ok [], st, [])
  | (m, timer) :: rest, st =>
    match triggerTimeout handler now st m timer.generation with
    | (.error e, st2, fired) => (.error e, st2, fired.toList)
    | (.ok r, st2, fired) =>
      match forceTimeoutAll handler now rest st2 with
      | (.ok rs, st3, fs) => (.ok ((m, r) :: rs), st3, fired.toList ++ fs)
      | (.error e, st3, fs) => (.error e, st3, fired.toList ++ fs)

/-- `ModeManager.process_timeouts`: fire every timer whose deadline has
passed, from a snapshot filtered against the polled clock. -/
def processTimeouts (handler : String → ModeResult) (now : Nat)
    (st : ModeManagerState) :
    Except String (List (String × ModeResult)) × ModeManagerState × List Nat :=
  forceTimeoutAll handler now
    (st.pending_timeouts.filter fun p => p.2.deadline ≤ now) st

/-- `keymaps/models.py` `KeyStroke` with canonical modifiers. -/
structure KeyStroke where
  key : String
  modifiers : List String
deriving Repr, DecidableEq

/-- `KeyStroke.token`: modifiers joined with `+`, then `+key`. -/
def KeyStroke.token (s : KeyStroke) : String :=
  if s.modifiers ≠ [] then
    String.intercalate "+" s.modifiers ++ "+" ++ s.key
  else
    s.key

/-- `keymaps/models.py` `KeySequence`. -/
structure KeySequence where
  strokes : List KeyStroke
  timeout_ms : Nat
deriving Repr, DecidableEq

/-- `KeySequence.tokens`. -/
def KeySequence.tokens (s : KeySequence) : List String :=
  s.strokes.map KeyStroke.token

/-- `keymaps/models.py` `WhenClause`. -/
structure WhenClause where
  flag : String
  expected : Bool
deriving Repr, DecidableEq

/-- `WhenClause.evaluate` against a flag context defaulting to false. -/
def WhenClause.evaluate (c : WhenClause) (ctx : List (String × Bool)) : Bool :=
  ((ctx.lookup c.flag).getD false) = c.expected

/-- `keymaps/models.py` `Binding`. The opaque action handler lives in
`ActionRef`; see `ActionRefM`. -/
structure Binding where
  id : String
  mode : String
  sequence : KeySequence
  action_id : String
  description : String
  when : List WhenClause
  tags : List String
  priority : Int
deriving Repr, DecidableEq

/-- `Binding.when_map`: the guard clauses as a Python dict (keyed by flag,
later duplicates overwriting in place). -/
def Binding.when_map (b : Binding) : List (String × Bool) :=
  b.when.foldl (fun m c => dictSet m c.flag c.expected) []

/-- `Binding.allows`: all guard clauses hold in the context. -/
def Binding.allows (b : Binding) (ctx : List (String × Bool)) : Bool :=
  b.when.all (WhenClause.evaluate · ctx)

/-- `Binding.key_signature`: tokens joined with single spaces. -/
def Binding.key_signature (b : Binding) : String :=
  String.intercalate " " b.sequence.tokens

/-- Python dict equality on association lists with unique keys: the same
keys mapped to the same values, independent of insertion order. -/
def pyDictBEq (l r : List (String × Bool)) : Bool :=
  l.all (fun p => r.lookup p.1 = some p.2) &&
    r.all (fun p => l.lookup p.1 = some p.2)

/-- `keymaps/registry.py` `_contexts_overlap`: unguarded pairs always
overlap; a shared flag with differing expected values rules overlap out;
then a pair with exactly one unguarded side does not overlap; finally two
guarded maps overlap exactly when they are equal as dicts. -/
def contextsOverlap (left right : Binding) : Bool :=
  let lm := left.when_map
  let rm := right.when_map
  if left.when = [] ∧ right.when = [] then true
  else if lm.any fun p =>
      match rm.lookup p.1 with
      | some v => decide (v ≠ p.2)
      | none => false then false
  else if rm.any fun p =>
      match lm.lookup p.1 with
      | some v => decide (v ≠ p.2)
      | none => false then false
  else if left.when = [] ∨ right.when = [] then false
  else pyDictBEq lm rm

/-- `keymaps/models.py` `ActionRef` minus the opaque callable handler,
which no claim observes. -/
structure ActionRefM where
  id : String
  description : String
deriving Repr, DecidableEq

/-- `keymaps/registry.py` `KeymapRegistry`: actions and bindings as
insertion-ordered dicts keyed by id, plus the revision counter. The
`(mode, key-signature)` index is embedded as filtering over the binding
values (the index is kept consistent with the tables by the source). -/
structure Registry where
  actions : List (String × ActionRefM)
  bindings : List (String × Binding)
  revision : Nat
deriving Repr, DecidableEq

/-- Fresh `KeymapRegistry()`. -/
def Registry.empty : Registry :=
  ⟨[], [], 0⟩

/-- The binding values in table order. -/
def Registry.bindingList (R : Registry) : List Binding :=
  R.bindings.map Prod.snd

/-- `KeymapRegistry.iter_bindings`. -/
def Registry.iter_bindings (R : Registry) (mode : Option String) : List Binding :=
  match mode with
  | none => R.bindingList
  | some m => R.bindingList.filter fun b => b.mode = m

/-- `KeymapRegistry.detect_conflicts`: bindings indexed under the same
mode and key-signature, minus the ignored ids, filtered by guard-context
overlap. -/
def Registry.detect_conflicts (R : Registry) (b : Binding)
    (ignore : List String) : List Binding :=
  R.bindingList.filter fun ex =>
    ex.mode = b.mode ∧ ex.key_signature = b.key_signature ∧
      ex.id ∉ ignore ∧ contextsOverlap b ex

/-- Field updates accepted by `KeymapRegistry.update_binding` (any subset
of the non-id fields; rekeying a binding through `update_binding` is not
part of the modelled surface). -/
structure BindingChanges where
  mode : Option String
  sequence : Option KeySequence
  action_id : Option String
  description : Option String
  when : Option (List WhenClause)
  tags : Option (List String)
  priority : Option Int
deriving Repr, DecidableEq

/-- `dataclasses.replace` for the modelled change set. -/
def applyChanges (b : Binding) (ch : BindingChanges) : Binding :=
  { b with
    mode := ch.mode.getD b.mode
    sequence := ch.sequence.getD b.sequence
    action_id := ch.action_id.getD b.action_id
    description := ch.description.getD b.description
    when := ch.when.getD b.when
    tags := ch.tags.getD b.tags
    priority := ch.priority.getD b.priority }

/-- `KeymapRegistry.register_action`. A raise leaves the registry
unchanged; no path touches the revision counter. -/
def Registry.register_action (R : Registry) (a : ActionRefM)
    (replace : Bool) : Registry :=
  if ¬replace ∧ (R.actions.lookup a.id).isSome then R
  else { R with actions := dictSet R.actions a.id a }

/-- `KeymapRegistry.register_binding`: unknown action raises; conflicts
without `replace` raise; with `replace` the conflicting and same-id
bindings are removed first; a successful registration bumps the
revision. Raises leave the registry unchanged. -/
def Registry.register_binding (R : Registry) (b : Binding)
    (replace : Bool) : Registry :=
  if (R.actions.lookup b.action_id).isNone then R
  else
    let conflicts := R.detect_conflicts b []
    if conflicts ≠ [] ∧ ¬replace then R
    else if replace then
      let removed := conflicts.map Binding.id
      let bs := R.bindings.filter fun p => p.1 ∉ removed ∧ p.1 ≠ b.id
      { R with bindings := bs ++ [(b.id, b)], revision := R.revision + 1 }
    else if (R.bindings.lookup b.id).isSome then R
    else { R with bindings := R.bindings ++ [(b.id, b)], revision := R.revision + 1 }

/-- `KeymapRegistry.unregister_binding`: removing a missing id returns
`None` without touching the revision. -/
def Registry.unregister_binding (R : Registry) (id : String) : Registry :=
  match R.bindings.lookup id with
  | none => R
  | some _ =>
    { R with bindings := dictRemove R.bindings id, revision := R.revision + 1 }

/-- `KeymapRegistry.update_binding`: missing binding or unknown action
raises; a conflict of the updated binding (detected with the current one
deindexed) restores the index and raises; otherwise the binding is
replaced in place and the revision bumped. -/
def Registry.update_binding (R : Registry) (id : String)
    (ch : BindingChanges) : Registry :=
  match R.bindings.lookup id with
  | none => R
  | some current =>
    let updated := applyChanges current ch
    if (R.actions.lookup updated.action_id).isNone then R
    else if R.detect_conflicts updated [current.id] ≠ [] then R
    else
      { R with
        bindings := dictSet R.bindings id updated
        revision := R.revision + 1 }

/-- `KeymapRegistry.override_sequence_timeouts`: non-positive timeouts
raise; an explicit id set is collected first (a missing id raises before
any mutation); an empty target list returns without bumping the revision;
otherwise every target's sequence timeout is rewritten in place and the
revision bumped once. -/
def Registry.override_sequence_timeouts (R : Registry) (timeout_ms : Int)
    (mode : Option String) (binding_ids : Option (List String)) : Registry :=
  if timeout_ms ≤ 0 then R
  else
    let targets : Option (List Binding) :=
      match binding_ids with
      | some ids =>
        if ids.all fun i => (R.bindings.lookup i).isSome then
          some (ids.filterMap R.bindings.lookup)
        else none
      | none => some (R.iter_bindings mode)
    match targets with
    | none => R
    | some ts =>
      if ts = [] then R
      else
        let bs := ts.foldl
          (fun bs b =>
            dictSet bs b.id
              { b with sequence := ⟨b.sequence.strokes, timeout_ms.toNat⟩ })
          R.bindings
        { R with bindings := bs, revision := R.revision + 1 }

/-- A mutating registry call. -/
inductive RegOp where
  | register_action (a : ActionRefM) (replace : Bool)
  | register_binding (b : Binding) (replace : Bool)
  | unregister_binding (id : String)
  | update_binding (id : String) (ch : BindingChanges)
  | override_timeouts (timeout_ms : Int) (mode : Option String)
      (ids : Option (List String))
deriving Repr, DecidableEq

/-- Apply one registry call (raises leave the registry unchanged). -/
def applyOp (R : Registry) : RegOp → Registry
  | .register_action a replace => R.register_action a replace
  | .register_binding b replace => R.register_binding b replace
  | .unregister_binding id => R.unregister_binding id
  | .update_binding id ch => R.update_binding id ch
  | .override_timeouts t m ids => R.override_sequence_timeouts t m ids

/-- `keymaps/resolver.py` `TrieNode`. -/
inductive TrieNode where
  | mk (bindings : List String) (children : List (String × TrieNode))

/-- Terminal binding ids of a node. -/
def TrieNode.bindings : TrieNode → List String
  | .mk b _ => b

/-- Child transitions of a node. -/
def TrieNode.children : TrieNode → List (String × TrieNode)
  | .mk _ c => c

/-- `KeymapTrie.add_binding`: walk the token path, creating children as
needed, and append the binding id at the terminal node. -/
def trieInsert : TrieNode → List String → String → TrieNode
  | .mk bs cs, [], id => .mk (bs ++ [id]) cs
  | .mk bs cs, tok :: rest, id =>
    let child := (cs.lookup tok).getD (.mk [] [])
    .mk bs (dictSet cs tok (trieInsert child rest id))

/-- `keymaps/resolver.py` `KeymapTrie`. -/
structure KeymapTrie where
  mode : String
  root : TrieNode

/-- `KeymapResolver._ensure_trie`'s rebuild: a fresh trie over the mode's
bindings in registry order. -/
def buildTrie (R : Registry) (mode : String) : KeymapTrie :=
  ⟨mode,
    (R.iter_bindings (some mode)).foldl
      (fun n b => trieInsert n b.sequence.tokens b.id) (.mk [] [])⟩

/-- `keymaps/resolver.py` `ResolutionMatch`. -/
structure ResolutionMatch where
  binding : Binding
  action : ActionRefM
deriving Repr, DecidableEq

/-- `keymaps/resolver.py` `ResolutionResult` (the `match` field is named
`matched` as `match` is reserved in Lean). -/
structure ResolutionResult where
  status : String
  matched : Option ResolutionMatch
  consumed : Nat
  next_expected : List String
  timeout_ms : Option Nat
deriving Repr, DecidableEq

/-- The resolver's trie walk: follow each token to a child, counting the
consumed tokens, or stop at the first token with no matching child. -/
def walkTokens : TrieNode → List String → Nat → Option TrieNode × Nat
  | n, [], c => (some n, c)
  | n, tok :: rest, c =>
    match n.children.lookup tok with
    | none => (none, c)
    | some child => walkTokens child rest (c + 1)

/-- Python sort key order on matches: higher priority first, ties broken
by lexicographically smaller binding id. -/
def matchKeyLt (a b : ResolutionMatch) : Bool :=
  a.binding.priority > b.binding.priority ∨
    (a.binding.priority = b.binding.priority ∧ a.binding.id < b.binding.id)

/-- `KeymapResolver._select_match`: keep the bindings allowed by the
context, pair them with their actions, and pick the sort-order minimum.
`get_binding`/`get_action` raise only for ids absent from the registry,
which cannot occur for a trie built from it; such ids are skipped. -/
def selectMatch (R : Registry) (node : TrieNode)
    (ctx : List (String × Bool)) : Option ResolutionMatch :=
  if node.bindings = [] then none
  else
    let ms := node.bindings.filterMap fun id =>
      match R.bindings.lookup id with
      | none => none
      | some b =>
        if b.allows ctx then
          match R.actions.lookup b.action_id with
          | none => none
          | some a => some (⟨b, a⟩ : ResolutionMatch)
        else none
    match ms with
    | [] => none
    | m :: rest => some (rest.foldl (fun best x => if matchKeyLt x best then x else best) m)

/-- Binding ids on all nodes of a subtree forest (the resolver's
depth-first scan below a node). -/
def subtreeBindingsList : List (String × TrieNode) → List String
  | [] => []
  | (_, .mk bs cs) :: rest =>
    bs ++ subtreeBindingsList cs ++ subtreeBindingsList rest

/-- `KeymapResolver._pending_timeout`: the minimum sequence timeout among
all bindings strictly below the node, `none` when there are none. -/
def pendingTimeout (R : Registry) (node : TrieNode) : Option Nat :=
  let timeouts := (subtreeBindingsList node.children).filterMap fun id =>
    (R.bindings.lookup id).map fun b => b.sequence.timeout_ms
  match timeouts with
  | [] => none
  | t :: rest => some (rest.foldl min t)

/-- `TrieNode.next_tokens`: sorted child tokens. -/
def nextTokens (node : TrieNode) : List String :=
  (node.children.map Prod.fst).mergeSort (fun a b => a ≤ b)

/-- `KeymapResolver.resolve` against a given trie: walk the tokens, then
produce a match, a pending result with continuations and ambiguity
timeout, or a miss. -/
def resolveWithTrie (R : Registry) (trie : KeymapTrie) (tokens : List String)
    (ctx : List (String × Bool)) : ResolutionResult :=
  match walkTokens trie.root tokens 0 with
  | (none, consumed) => ⟨"miss", none, consumed, [], none⟩
  | (some node, consumed) =>
    match selectMatch R node ctx with
    | some m => ⟨"match", some m, consumed, [], none⟩
    | none =>
      let ne := nextTokens node
      if ne ≠ [] then ⟨"pending", none, consumed, ne, pendingTimeout R node⟩
      else ⟨"miss", none, consumed, [], none⟩

/-- The `KeymapResolver` cache: per mode, the registry revision the trie
was built at, and the trie. -/
structure ResolverState where
  cache : List (String × (Nat × KeymapTrie))

/-- Fresh `KeymapResolver` cache. -/
def ResolverState.empty : ResolverState :=
  ⟨[]⟩

/-- `KeymapResolver._ensure_trie`: reuse the cached trie when its stored
revision equals the registry revision, else rebuild and cache. -/
def ensureTrie (R : Registry) (rs : ResolverState) (mode : String) :
    KeymapTrie × ResolverState :=
  match rs.cache.lookup mode with
  | some (rev, trie) =>
    if rev = R.revision then (trie, rs)
    else
      let trie := buildTrie R mode
      (trie, ⟨dictSet rs.cache mode (R.revision, trie)⟩)
  | none =>
    let trie := buildTrie R mode
    (trie, ⟨dictSet rs.cache mode (R.revision, trie)⟩)

/-- `KeymapResolver.resolve`: resolve against the (lazily rebuilt) cached
trie for the mode. -/
def resolveCached (R : Registry) (rs : ResolverState) (mode : String)
    (tokens : List String) (ctx : List (String × Bool)) :
    ResolutionResult × ResolverState :=
  let p := ensureTrie R rs mode
  (resolveWithTrie R p.1 tokens ctx, p.2)

/-- Reference resolver for the spec's comparison: rebuild the mode trie
from the current registry from scratch on every call. -/
def resolveFromScratch (R : Registry) (mode : String) (tokens : List String)
    (ctx : List (String × Bool)) : ResolutionResult :=
  resolveWithTrie R (buildTrie R mode) tokens ctx

/-- One step of a session touching the registry or the resolver. -/
inductive EngineEvent where
  | mutate (op : RegOp)
  | doResolve (mode : String) (tokens : List String)
      (ctx : List (String × Bool))

/-- Run a session from a registry/resolver pair. -/
def runEvents : List EngineEvent → Registry × ResolverState →
    Registry × ResolverState
  | [], s => s
  | .mutate op :: rest, (R, rs) => runEvents rest (applyOp R op, rs)
  | .doResolve m toks ctx :: rest, (R, rs) =>
    runEvents rest (R, (resolveCached R rs m toks ctx).2)

/-- Cache soundness: every cached trie either predates the current
revision or equals the trie rebuilt from the current registry. -/
def cacheOk (R : Registry) (rs : ResolverState) : Prop :=
  ∀ m rev trie, rs.cache.lookup m = some (rev, trie) →
    rev ≤ R.revision ∧ (rev = R.revision → trie = buildTrie R m)

/-! Shared lemmas about the Python-dict association-list operations and
cursor validation. -/

theorem lookup_none_of_not_mem_keys {α : Type} [DecidableEq α] {β : Type}
    (l : List (α × β)) (k : α) (h : ∀ v, (k, v) ∉ l) :
    l.lookup k = none := by
  induction l with
  | nil => rfl
  | cons p rest ih =>
    obtain ⟨k2, v2⟩ := p
    by_cases hk : k = k2
    · subst hk
      exact absurd (List.mem_cons_self _ _) (h v2)
    · have hb : (k == k2) = false := beq_eq_false_iff_ne.mpr hk
      have h2 : ∀ v, (k, v) ∉ rest := fun v hv =>
        h v (List.mem_cons_of_mem _ hv)
      simp [List.lookup, hb, ih h2]

theorem lookup_dictSet_self {α : Type} [DecidableEq α] {β : Type}
    (l : List (α × β)) (k : α) (v : β) : (dictSet l k v).lookup k = some v := by
  induction l with
  | nil => simp [dictSet, List.lookup]
  | cons p rest ih =>
    obtain ⟨k2, v2⟩ := p
    by_cases h : k2 = k
    · simp [dictSet, h, List.lookup]
    · have hb : (k == k2) = false := beq_eq_false_iff_ne.mpr (Ne.symm h)
      simp [dictSet, h, List.lookup, hb, ih]

theorem lookup_dictSet_ne {α : Type} [DecidableEq α] {β : Type}
    (l : List (α × β)) (k k2 : α) (v : β) (h : k2 ≠ k) :
    (dictSet l k v).lookup k2 = l.lookup k2 := by
  have hb : (k2 == k) = false := beq_eq_false_iff_ne.mpr h
  induction l with
  | nil => simp [dictSet, List.lookup, hb]
  | cons p rest ih =>
    obtain ⟨k3, v3⟩ := p
    by_cases h3 : k3 = k
    · subst h3
      simp [dictSet, List.lookup, hb]
    · simp [dictSet, h3, List.lookup, ih]

theorem lookup_dictRemove_self {α : Type} [DecidableEq α] {β : Type}
    (l : List (α × β)) (k : α) (hnd : (l.map Prod.fst).Nodup) :
    (dictRemove l k).lookup k = none := by
  induction l with
  | nil => rfl
  | cons p rest ih =>
    obtain ⟨k2, v2⟩ := p
    simp at hnd
    by_cases h : k2 = k
    · subst h
      simp only [dictRemove, if_pos rfl]
      exact lookup_none_of_not_mem_keys rest k2 hnd.1
    · have hb : (k == k2) = false := beq_eq_false_iff_ne.mpr (Ne.symm h)
      simp [dictRemove, h, List.lookup, hb, ih hnd.2]

theorem ensure_cursor_ok_iff (d : BufferDocument) (c : Cursor) :
    ensure_cursor d c = .ok c ↔ validCursor d c := by
  unfold ensure_cursor validCursor
  split
  · constructor
    · intro h; simp at h
    · intro h; omega
  · dsimp only
    split
    · constructor
      · intro h; simp at h
      · intro h; omega
    · simp; omega

theorem ensure_cursor_invalid (d : BufferDocument) (c : Cursor)
    (h : ¬ validCursor d c) : ∃ e, ensure_cursor d c = .error e := by
  unfold ensure_cursor
  unfold validCursor at h
  split
  · exact ⟨_, rfl⟩
  · dsimp only
    split
    · exact ⟨_, rfl⟩
    · omega

/-- C1: the claim says a successful `replace_range` leaves the document at
version `v + 1`. The code rebuilds the document with
`BufferDocument.from_text`, which always sets `version = 0`: at the failing
input below the old version is 0, the call succeeds, and the new version is
0 rather than 1 (`last_change_tick` is likewise stuck at 0). -/
theorem C1_replace_range_version_stays_zero :
    (Buffer.from_text ("x".toList)).document.version = 0 ∧
    ((Buffer.from_text ("x".toList)).replace_range (0, 0) (0, 0)
        ("a".toList) "insert_text").1 =
      .ok ⟨0, "ax".toList, (0, 1), none, "insert_text"⟩ ∧
    ((Buffer.from_text ("x".toList)).replace_range (0, 0) (0, 0)
        ("a".toList) "insert_text").2.document.version = 0 := by
  decide

theorem push_index (tl : UndoTimeline) (e : UndoEntry) :
    (tl.push e).index = ((tl.push e).entries.length : Int) - 1 :=
  rfl

/-- C6: the undo timeline is linear. `push` truncates everything beyond the
current index before appending and leaves the index on the new last entry,
so a `redo` immediately after any `push` returns `none`; `undo`/`redo`
return `none` exactly at the respective end of the timeline (index below
zero, resp. index on the last entry) and otherwise move the index and
return the entry, as the source does. The hypotheses are the index bounds
every reachable timeline satisfies. -/
theorem C6_undo_timeline_linear (tl : UndoTimeline) (e : UndoEntry)
    (hlo : -1 ≤ tl.index) (hhi : tl.index ≤ (tl.entries.length : Int) - 1) :
    (tl.push e).entries = tl.entries.take (tl.index + 1).toNat ++ [e] ∧
    ((tl.push e).redo = (none, tl.push e)) ∧
    (tl.undo.1 = none ↔ tl.index < 0) ∧
    (tl.redo.1 = none ↔ tl.index = (tl.entries.length : Int) - 1) ∧
    (0 ≤ tl.index →
      tl.undo = (tl.entries.get? tl.index.toNat, ⟨tl.entries, tl.index - 1⟩) ∧
      tl.undo.1.isSome) ∧
    (tl.index < (tl.entries.length : Int) - 1 →
      tl.redo = (tl.entries.get? (tl.index + 1).toNat,
        ⟨tl.entries, tl.index + 1⟩) ∧
      tl.redo.1.isSome) := by
  obtain ⟨entries, index⟩ := tl
  simp only at hlo hhi ⊢
  refine ⟨?_, ?_, ?_, ?_, ?_, ?_⟩
  · unfold UndoTimeline.push
    dsimp only
    split
    · rfl
    · have hix : index = (entries.length : Int) - 1 := by omega
      subst hix
      have : ((entries.length : Int) - 1 + 1).toNat = entries.length := by omega
      rw [this, List.take_length]
  · unfold UndoTimeline.redo UndoTimeline.can_redo
    rw [push_index ⟨entries, index⟩ e]
    simp
  · unfold UndoTimeline.undo UndoTimeline.can_undo
    dsimp only
    split
    · rename_i hge
      simp only [decide_eq_true_eq] at hge
      have hlt : index.toNat < entries.length := by omega
      constructor
      · intro hnone
        rw [List.get?_eq_none] at hnone
        omega
      · omega
    · rename_i hge
      simp only [decide_eq_true_eq] at hge
      simp
      omega
  · unfold UndoTimeline.redo UndoTimeline.can_redo
    dsimp only
    split
    · rename_i hlt2
      simp only [decide_eq_true_eq] at hlt2
      have hlt : (index + 1).toNat < entries.length := by omega
      constructor
      · intro hnone
        rw [List.get?_eq_none] at hnone
        omega
      · omega
    · rename_i hlt2
      simp only [decide_eq_true_eq] at hlt2
      simp
      omega
  · intro hge
    unfold UndoTimeline.undo UndoTimeline.can_undo
    rw [if_pos (by simpa using hge)]
    refine ⟨rfl, ?_⟩
    have hlt : index.toNat < entries.length := by omega
    rw [Option.isSome_iff_exists]
    have := List.get?_eq_get hlt
    exact ⟨_, this⟩
  · intro hlt0
    unfold UndoTimeline.redo UndoTimeline.can_redo
    rw [if_pos (by simpa using hlt0)]
    refine ⟨rfl, ?_⟩
    have hlt : (index + 1).toNat < entries.length := by omega
    rw [Option.isSome_iff_exists]
    have := List.get?_eq_get hlt
    exact ⟨_, this⟩

/-- C6 witness: a two-entry timeline after one undo; push discards the redo
tail, redo right after the push yields `none`, and the end conditions hold. -/
theorem C6_undo_timeline_linear_witness :
    let e1 : UndoEntry := ⟨"a", [], ['a'], (0, 0), (0, 1)⟩
    let e2 : UndoEntry := ⟨"b", ['a'], ['b'], (0, 1), (0, 1)⟩
    let e3 : UndoEntry := ⟨"c", ['a'], ['c'], (0, 1), (0, 1)⟩
    let tl : UndoTimeline := ⟨[e1, e2], 0⟩
    (tl.push e3).entries = tl.entries.take (tl.index + 1).toNat ++ [e3] ∧
    ((tl.push e3).redo = (none, tl.push e3)) ∧
    (tl.undo.1 = none ↔ tl.index < 0) ∧
    (tl.redo.1 = none ↔ tl.index = (tl.entries.length : Int) - 1) ∧
    (0 ≤ tl.index →
      tl.undo = (tl.entries.get? tl.index.toNat, ⟨tl.entries, tl.index - 1⟩) ∧
      tl.undo.1.isSome) ∧
    (tl.index < (tl.entries.length : Int) - 1 →
      tl.redo = (tl.entries.get? (tl.index + 1).toNat,
        ⟨tl.entries, tl.index + 1⟩) ∧
      tl.redo.1.isSome) :=
  C6_undo_timeline_linear ⟨[⟨"a", [], ['a'], (0, 0), (0, 1)⟩,
    ⟨"b", ['a'], ['b'], (0, 1), (0, 1)⟩], 0⟩
    ⟨"c", ['a'], ['c'], (0, 1), (0, 1)⟩ (by decide) (by decide)

/-- C8: an out-of-bounds start or end cursor makes `replace_range` raise a
validation error with the buffer left exactly as it was: document (lines
and version), cursor, selection, registers, and undo timeline unchanged.
The source validates both cursors before the transaction body runs. -/
theorem C8_replace_range_all_or_nothing (b : Buffer) (start stop : Cursor)
    (text : List Char) (label : String)
    (h : ¬ validCursor b.document start ∨ ¬ validCursor b.document stop) :
    (∃ e, (b.replace_range start stop text label).1 = .error e) ∧
    (b.replace_range start stop text label).2 = b ∧
    (b.replace_range start stop text label).2.document = b.document ∧
    (b.replace_range start stop text label).2.state.cursor = b.state.cursor ∧
    (b.replace_range start stop text label).2.state.selection
      = b.state.selection ∧
    (b.replace_range start stop text label).2.registers = b.registers ∧
    (b.replace_range start stop text label).2.undo = b.undo := by
  have hbase : ∃ e, (b.replace_range start stop text label).1 = .error e ∧
      (b.replace_range start stop text label).2 = b := by
    unfold Buffer.replace_range
    by_cases h1 : validCursor b.document start
    · have h2 : ¬ validCursor b.document stop := by
        cases h with
        | inl hc => exact absurd h1 hc
        | inr hc => exact hc
      rw [(ensure_cursor_ok_iff _ _).mpr h1]
      obtain ⟨e, he⟩ := ensure_cursor_invalid _ _ h2
      rw [he]
      exact ⟨e, rfl, rfl⟩
    · obtain ⟨e, he⟩ := ensure_cursor_invalid _ _ h1
      rw [he]
      exact ⟨e, rfl, rfl⟩
  obtain ⟨e, he, hb⟩ := hbase
  exact ⟨⟨e, he⟩, hb, by rw [hb], by rw [hb], by rw [hb], by rw [hb], by rw [hb]⟩

/-- C8 witness: a row past the end of a one-line buffer. -/
theorem C8_replace_range_all_or_nothing_witness :
    let b := Buffer.from_text ("x".toList)
    (∃ e, (b.replace_range (5, 0) (0, 0) [] "t").1 = .error e) ∧
    (b.replace_range (5, 0) (0, 0) [] "t").2 = b ∧
    (b.replace_range (5, 0) (0, 0) [] "t").2.document = b.document ∧
    (b.replace_range (5, 0) (0, 0) [] "t").2.state.cursor = b.state.cursor ∧
    (b.replace_range (5, 0) (0, 0) [] "t").2.state.selection
      = b.state.selection ∧
    (b.replace_range (5, 0) (0, 0) [] "t").2.registers = b.registers ∧
    (b.replace_range (5, 0) (0, 0) [] "t").2.undo = b.undo :=
  C8_replace_range_all_or_nothing (Buffer.from_text ("x".toList))
    (5, 0) (0, 0) [] "t" (Or.inl (by decide))

/-- C10: frame condition of a successful `replace_range`: only the
document, cursor, change tick, and undo timeline move; the selection, the
active register name, the register bank contents, and the buffer name are
exactly as before. -/
theorem C10_replace_range_frame (b : Buffer) (start stop : Cursor)
    (text : List Char) (label : String) (d : BufferDelta) (b2 : Buffer)
    (h : b.replace_range start stop text label = (.ok d, b2)) :
    b2.state.selection = b.state.selection ∧
    b2.state.active_register = b.state.active_register ∧
    b2.registers = b.registers ∧
    b2.name = b.name := by
  unfold Buffer.replace_range at h
  split at h
  · simp at h
  · split at h
    · simp at h
    · simp only [Prod.mk.injEq] at h
      obtain ⟨-, h2⟩ := h
      subst h2
      exact ⟨rfl, rfl, rfl, rfl⟩

/-- C10 witness: a concrete successful insertion. -/
theorem C10_replace_range_frame_witness :
    let b := Buffer.from_text ("x".toList)
    let b2 : Buffer :=
      ⟨"default", ⟨["ax".toList], 0, false⟩, ⟨(0, 1), none, "\"", 0⟩,
        RegisterBank.default,
        ⟨[⟨"t", "x".toList, "ax".toList, (0, 0), (0, 1)⟩], 0⟩⟩
    b2.state.selection = b.state.selection ∧
    b2.state.active_register = b.state.active_register ∧
    b2.registers = b.registers ∧
    b2.name = b.name :=
  C10_replace_range_frame (Buffer.from_text ("x".toList)) (0, 0) (0, 0)
    ("a".toList) "t" ⟨0, "ax".toList, (0, 1), none, "t"⟩
    ⟨"default", ⟨["ax".toList], 0, false⟩, ⟨(0, 1), none, "\"", 0⟩,
      RegisterBank.default,
      ⟨[⟨"t", "x".toList, "ax".toList, (0, 0), (0, 1)⟩], 0⟩⟩
    (by decide)

/-- C4 counterexample: a backspace that empties the accumulated command
text. The claim says the mode result then requests leaving Command mode;
the code removes the last element and returns an "editing" result with no
mode switch (`switch_to = none`), staying in Command mode. -/
theorem C4_backspace_empty_no_exit :
    (handleTextInput ⟨"BACKSPACE", [], none⟩ ["a"]).1 = [] ∧
    (handleTextInput ⟨"BACKSPACE", [], none⟩ ["a"]).2.1.switch_to = none ∧
    (handleTextInput ⟨"BACKSPACE", [], none⟩ ["a"]).2.1 =
      ⟨true, none, "editing", none, none⟩ := by
  decide

/-- C4 amended: a backspace reaching text-input handling with non-empty
accumulated text removes the most recently typed element and returns a
consumed "editing" result with no mode switch — even when the text becomes
empty, Command mode is not exited. -/
theorem C4_backspace_pops_without_exit (key : KeyInput) (typed : List String)
    (hk : key.key = "BACKSPACE") (ht : typed ≠ []) :
    handleTextInput key typed =
      (typed.dropLast, ⟨true, none, "editing", none, none⟩, []) := by
  unfold handleTextInput
  rw [hk]
  simp [ht]

/-- C4 witness: backspace on the two-element command text "ab". -/
theorem C4_backspace_pops_without_exit_witness :
    handleTextInput ⟨"BACKSPACE", [], some "\x08"⟩ ["a", "b"] =
      (["a"], ⟨true, none, "editing", none, none⟩, []) :=
  C4_backspace_pops_without_exit ⟨"BACKSPACE", [], some "\x08"⟩ ["a", "b"]
    rfl (by decide)

theorem countParse_operator (keys : List String) (d : OperatorDraft) :
    ((countParse keys d).2).operator = d.operator := by
  unfold countParse
  dsimp only
  split <;> rfl

theorem motionParse_operator (keys : List String) (d : OperatorDraft) :
    ((motionParse keys d).2).operator = d.operator := by
  cases keys <;> rfl

theorem draftAfterStages_operator (keys : List String) :
    (draftAfterStages keys).operator = none := by
  unfold draftAfterStages
  rw [motionParse_operator, countParse_operator]
  rfl

/-- C5 counterexample: a single motion token. After stage 1 consumes no
digits and stage 2 consumes "w" as the motion, a motion exists, so the
claim says stage 3 produces a plan; the code's resolver finds no remaining
token, leaves the fresh draft's operator `None`, and produces no plan. -/
theorem C5_motion_only_produces_no_plan :
    pipelineParse ["w"] = none ∧
    (draftAfterStages ["w"]).motion = some "w" ∧
    remainingAfterStages ["w"] = [] := by
  decide

/-- C5 amended: for every key sequence of ASCII tokens (the domain on
which the `isDigitKey`/`digitsToNat` embeddings match Python's
`str.isdigit`/`int` exactly), stage 3 produces an `ExecutionPlan` exactly
when tokens remain after the count and motion stages (the first remaining
token becoming the operator, with the parsed motion, count, default
register, and the raw keys); when no tokens remain — even if a motion
exists — no plan is produced. -/
theorem C5_plan_iff_tokens_remain (keys : List String)
    (_hascii : ∀ k ∈ keys, asciiKey k = true) :
    (pipelineParse keys = none ↔ remainingAfterStages keys = []) ∧
    (∀ k rest, remainingAfterStages keys = k :: rest →
      pipelineParse keys =
        some ⟨k, (draftAfterStages keys).motion, (draftAfterStages keys).count,
          "\"", (draftAfterStages keys).raw_keys ++ remainingAfterStages keys⟩) := by
  have hpp : pipelineParse keys =
      operatorResolve (remainingAfterStages keys) (draftAfterStages keys) := rfl
  have hop := draftAfterStages_operator keys
  constructor
  · rw [hpp]
    unfold operatorResolve
    cases hrem : remainingAfterStages keys with
    | nil =>
      cases hm : (draftAfterStages keys).motion with
      | none => simp
      | some m => simp [hop, hm]
    | cons k rest => simp
  · intro k rest hrem
    rw [hpp, hrem]
    unfold operatorResolve
    simp

/-- C5 witness: count 2, motion "w", operator "d". -/
theorem C5_plan_iff_tokens_remain_witness :
    remainingAfterStages ["2", "w", "d"] = "d" :: [] ∧
    pipelineParse ["2", "w", "d"] =
      some ⟨"d", (draftAfterStages ["2", "w", "d"]).motion,
        (draftAfterStages ["2", "w", "d"]).count, "\"",
        (draftAfterStages ["2", "w", "d"]).raw_keys ++
          remainingAfterStages ["2", "w", "d"]⟩ :=
  ⟨by decide,
    (C5_plan_iff_tokens_remain ["2", "w", "d"] (by decide)).2 "d" []
      (by decide)⟩

theorem dictRemove_sublist {α : Type} [DecidableEq α] {β : Type}
    (l : List (α × β)) (k : α) : List.Sublist (dictRemove l k) l := by
  induction l with
  | nil => simp [dictRemove]
  | cons p rest ih =>
    obtain ⟨k2, v2⟩ := p
    unfold dictRemove
    split
    · exact List.sublist_cons_self _ _
    · exact ih.cons₂ _

theorem nodup_keys_dictRemove {α : Type} [DecidableEq α] {β : Type}
    (l : List (α × β)) (k : α) (h : (l.map Prod.fst).Nodup) :
    ((dictRemove l k).map Prod.fst).Nodup :=
  h.sublist ((dictRemove_sublist l k).map Prod.fst)

theorem trigger_inert_of_stale (handler : String → ModeResult) (now : Nat)
    (st : ModeManagerState) (mode : String) (gen : Nat)
    (h : ∀ t, st.pending_timeouts.lookup mode = some t → t.generation ≠ gen) :
    triggerTimeout handler now st mode gen = (.ok timeoutResult, st, none) := by
  unfold triggerTimeout
  cases ht : st.pending_timeouts.lookup mode with
  | none => rfl
  | some t =>
    dsimp only
    rw [if_pos (h t ht)]

/-- C7: a superseded timer never fires its mode's handler. In order: a fire
request whose generation differs from the stored one (or whose mode has no
stored timer) is inert — it returns the bare timeout result, changes no
state, and invokes no handler; after re-arming a mode's timer, a fire
request carrying the first arm's generation is inert; after
`cancel_timeout` any fire request for the mode is inert; after a real
`switch_mode` away from or into a mode, any fire request for the switched-to
mode is inert; and after two consecutive arms for a registered mode,
`force_timeout` invokes exactly the second arm's generation, never the
first. -/
theorem C7_superseded_timer_inert :
    (∀ (handler : String → ModeResult) (now : Nat) (st : ModeManagerState)
        (mode : String) (gen : Nat),
      (∀ t, st.pending_timeouts.lookup mode = some t → t.generation ≠ gen) →
      triggerTimeout handler now st mode gen = (.ok timeoutResult, st, none)) ∧
    (∀ (handler : String → ModeResult) (now1 now2 now3 : Nat)
        (st : ModeManagerState) (mode : String) (t1 t2 : Nat),
      triggerTimeout handler now3
          (armTimeout (armTimeout st mode t1 now1) mode t2 now2) mode
          (armTimeout st mode t1 now1).timer_counter =
        (.ok timeoutResult,
          armTimeout (armTimeout st mode t1 now1) mode t2 now2, none)) ∧
    (∀ (handler : String → ModeResult) (now : Nat) (st : ModeManagerState)
        (mode : String) (gen : Nat),
      (st.pending_timeouts.map Prod.fst).Nodup →
      triggerTimeout handler now (cancelTimeout st mode) mode gen =
        (.ok timeoutResult, cancelTimeout st mode, none)) ∧
    (∀ (handler : String → ModeResult) (now : Nat) (st : ModeManagerState)
        (name : String) (u : Unit) (st2 : ModeManagerState) (gen : Nat),
      (st.pending_timeouts.map Prod.fst).Nodup →
      st.active ≠ some name →
      switchMode st name = (.ok u, st2) →
      triggerTimeout handler now st2 name gen =
        (.ok timeoutResult, st2, none)) ∧
    (∀ (handler : String → ModeResult) (now1 now2 now3 : Nat)
        (st : ModeManagerState) (mode : String) (t1 t2 : Nat),
      mode ∈ st.modes →
      (forceTimeoutOne handler now3
          (armTimeout (armTimeout st mode t1 now1) mode t2 now2) mode).2.2 =
        [st.timer_counter + 2] ∧
      (armTimeout st mode t1 now1).timer_counter ≠ st.timer_counter + 2) := by
  refine ⟨trigger_inert_of_stale, ?_, ?_, ?_, ?_⟩
  · intro handler now1 now2 now3 st mode t1 t2
    apply trigger_inert_of_stale
    intro t ht
    unfold armTimeout at ht
    dsimp only at ht
    rw [lookup_dictSet_self] at ht
    cases ht
    unfold armTimeout
    dsimp only
    omega
  · intro handler now st mode gen hnd
    apply trigger_inert_of_stale
    intro t ht
    unfold cancelTimeout at ht
    dsimp only at ht
    rw [lookup_dictRemove_self _ _ hnd] at ht
    cases ht
  · intro handler now st name u st2 gen hnd hactive hsw
    apply trigger_inert_of_stale
    intro t ht
    unfold switchMode at hsw
    split at hsw
    · simp at hsw
    · dsimp only at hsw
      split at hsw
      · rename_i hprev
        exfalso
        apply hactive
        cases hst : st.active with
        | none => rw [hst] at hprev; simp at hprev
        | some a =>
          rw [hst] at hprev
          dsimp only at hprev
          split at hprev
          · injection hprev with h2
            rw [h2]
          · simp at hprev
      · simp only [Prod.mk.injEq] at hsw
        obtain ⟨-, h2⟩ := hsw
        subst h2
        unfold cancelTimeout at ht
        dsimp only at ht
        split at ht
        · dsimp only at ht
          rw [lookup_dictRemove_self _ _
            (nodup_keys_dictRemove _ _ hnd)] at ht
          cases ht
        · rw [lookup_dictRemove_self _ _ hnd] at ht
          cases ht
  · intro handler now1 now2 now3 st mode t1 t2 hmem
    have hl : (armTimeout (armTimeout st mode t1 now1) mode t2
        now2).pending_timeouts.lookup mode =
        some ⟨now2 + t2, t2, st.timer_counter + 2⟩ := by
      unfold armTimeout
      dsimp only
      exact lookup_dictSet_self _ _ _
    have htr : (triggerTimeout handler now3
        (armTimeout (armTimeout st mode t1 now1) mode t2 now2) mode
        (st.timer_counter + 2)).2.2 = some (st.timer_counter + 2) := by
      unfold triggerTimeout
      rw [hl]
      dsimp only
      rw [if_neg (by simp)]
      rw [if_neg (fun hc => hc hmem)]
    constructor
    · unfold forceTimeoutOne
      rw [hl]
      dsimp only
      cases hT : triggerTimeout handler now3
          (armTimeout (armTimeout st mode t1 now1) mode t2 now2) mode
          (st.timer_counter + 2) with
      | mk r rest =>
        obtain ⟨st3, fired⟩ := rest
        rw [hT] at htr
        dsimp only at htr
        rw [htr]
        rfl
    · unfold armTimeout
      dsimp only
      omega

/-- C7 witness: two arms for mode "normal" on a one-mode manager; a fire
request with the first generation is inert, and forcing the timeout fires
only the second generation. -/
theorem C7_superseded_timer_inert_witness :
    (triggerTimeout (fun _ => timeoutResult) 9
        (armTimeout (armTimeout ⟨["normal"], some "normal", [], 0⟩
          "normal" 100 1) "normal" 200 2) "normal"
        (armTimeout ⟨["normal"], some "normal", [], 0⟩
          "normal" 100 1).timer_counter =
      (.ok timeoutResult,
        armTimeout (armTimeout ⟨["normal"], some "normal", [], 0⟩
          "normal" 100 1) "normal" 200 2, none)) ∧
    ("normal" ∈ (⟨["normal"], some "normal", [], 0⟩ : ModeManagerState).modes ∧
      (forceTimeoutOne (fun _ => timeoutResult) 9
          (armTimeout (armTimeout ⟨["normal"], some "normal", [], 0⟩
            "normal" 100 1) "normal" 200 2) "normal").2.2 = [0 + 2]) :=
  ⟨C7_superseded_timer_inert.2.1 (fun _ => timeoutResult) 1 2 9
      ⟨["normal"], some "normal", [], 0⟩ "normal" 100 200,
    by decide,
    (C7_superseded_timer_inert.2.2.2.2 (fun _ => timeoutResult) 1 2 9
      ⟨["normal"], some "normal", [], 0⟩ "normal" 100 200 (by decide)).1⟩

theorem mem_values_of_lookup {α : Type} [DecidableEq α] {β : Type}
    (l : List (α × β)) (k : α) (v : β) (h : l.lookup k = some v) :
    v ∈ l.map Prod.snd := by
  induction l with
  | nil => simp [List.lookup] at h
  | cons p rest ih =>
    obtain ⟨k2, v2⟩ := p
    unfold List.lookup at h
    cases hk : (k == k2) with
    | true => rw [hk] at h; injection h with h2; simp [h2]
    | false => rw [hk] at h; simpa using Or.inr (ih h)

theorem pyDictBEq_symm (l r : List (String × Bool)) :
    pyDictBEq l r = pyDictBEq r l := by
  unfold pyDictBEq
  rw [Bool.and_comm]

theorem contextsOverlap_iff (a b : Binding) :
    contextsOverlap a b = true ↔
      ((a.when = [] ∧ b.when = []) ∨
        (a.when ≠ [] ∧ b.when ≠ [] ∧
          pyDictBEq a.when_map b.when_map = true)) := by
  unfold contextsOverlap
  dsimp only
  split
  · rename_i h
    simp [h]
  · rename_i h
    split
    · rename_i hany
      simp only [Bool.false_eq_true, false_iff]
      intro hc
      rcases hc with ⟨h1, h2⟩ | ⟨h1, h2, h3⟩
      · exact h ⟨h1, h2⟩
      · rw [List.any_eq_true] at hany
        obtain ⟨p, hp, hpv⟩ := hany
        cases hr : b.when_map.lookup p.1 with
        | none => rw [hr] at hpv; simp at hpv
        | some v =>
          rw [hr] at hpv
          simp at hpv
          unfold pyDictBEq at h3
          rw [Bool.and_eq_true, List.all_eq_true, List.all_eq_true] at h3
          have h4 := h3.1 p hp
          simp at h4
          rw [hr] at h4
          injection h4 with h5
          exact hpv h5
    · split
      · rename_i hany
        simp only [Bool.false_eq_true, false_iff]
        intro hc
        rcases hc with ⟨h1, h2⟩ | ⟨h1, h2, h3⟩
        · exact h ⟨h1, h2⟩
        · rw [List.any_eq_true] at hany
          obtain ⟨p, hp, hpv⟩ := hany
          cases hr : a.when_map.lookup p.1 with
          | none => rw [hr] at hpv; simp at hpv
          | some v =>
            rw [hr] at hpv
            simp at hpv
            unfold pyDictBEq at h3
            rw [Bool.and_eq_true, List.all_eq_true, List.all_eq_true] at h3
            have h4 := h3.2 p hp
            simp at h4
            rw [hr] at h4
            injection h4 with h5
            exact hpv h5
      · split
        · rename_i hone
          simp only [Bool.false_eq_true, false_iff]
          intro hc
          rcases hc with ⟨h1, h2⟩ | ⟨h1, h2, h3⟩
          · exact h ⟨h1, h2⟩
          · rcases hone with ho | ho
            · exact h1 ho
            · exact h2 ho
        · rename_i hone
          push_neg at hone
          constructor
          · intro hq
            exact Or.inr ⟨hone.1, hone.2, hq⟩
          · intro hc
            rcases hc with ⟨h1, h2⟩ | ⟨h1, h2, h3⟩
            · exact absurd ⟨h1, h2⟩ h
            · exact h3

/-- C2 counterexample: two registered bindings in the same mode with the
same key-signature, both guarded, whose guard sets share no flag at all.
The claim says they conflict; `detect_conflicts` reports neither as a
conflict of the other, because `_contexts_overlap` ends by comparing the
guard maps for equality. -/
theorem C2_disjoint_guards_not_reported :
    let B1 : Binding :=
      ⟨"b1", "normal", ⟨[⟨"g", []⟩], 1000⟩, "act", "", [⟨"panel", true⟩], [], 0⟩
    let B2 : Binding :=
      ⟨"b2", "normal", ⟨[⟨"g", []⟩], 1000⟩, "act", "", [⟨"split", true⟩], [], 0⟩
    let R : Registry :=
      ⟨[("act", ⟨"act", ""⟩)], [("b1", B1), ("b2", B2)], 2⟩
    B1.mode = B2.mode ∧ B1.key_signature = B2.key_signature ∧
    B1.id ≠ B2.id ∧ B1.when ≠ [] ∧ B2.when ≠ [] ∧
    (B1.when_map.all fun p => B2.when_map.lookup p.1 = none) = true ∧
    B2 ∉ R.detect_conflicts B1 [] ∧ B1 ∉ R.detect_conflicts B2 [] := by
  decide

/-- C2 amended: for registered bindings B1 ≠ B2 in the same mode with
identical key-signature, `detect_conflicts` reports them as mutually
conflicting exactly when both are unguarded, or both are guarded with
equal guard maps; the exceptions are that exactly one of them has guards,
or both have guards whose maps differ (in particular sharing a flag with
differing expected values, but also disjoint or otherwise unequal guard
sets). -/
theorem C2_conflicts_iff_guard_maps_equal (R : Registry) (B1 B2 : Binding)
    (h1 : R.bindings.lookup B1.id = some B1)
    (h2 : R.bindings.lookup B2.id = some B2)
    (_hne : B1.id ≠ B2.id)
    (hmode : B1.mode = B2.mode) (hsig : B1.key_signature = B2.key_signature) :
    (B2 ∈ R.detect_conflicts B1 [] ↔
      ((B1.when = [] ∧ B2.when = []) ∨
        (B1.when ≠ [] ∧ B2.when ≠ [] ∧
          pyDictBEq B1.when_map B2.when_map = true))) ∧
    (B1 ∈ R.detect_conflicts B2 [] ↔
      ((B1.when = [] ∧ B2.when = []) ∨
        (B1.when ≠ [] ∧ B2.when ≠ [] ∧
          pyDictBEq B1.when_map B2.when_map = true))) := by
  have hm2 : B2 ∈ R.bindingList := mem_values_of_lookup _ _ _ h2
  have hm1 : B1 ∈ R.bindingList := mem_values_of_lookup _ _ _ h1
  constructor
  · unfold Registry.detect_conflicts
    rw [List.mem_filter]
    simp only [decide_eq_true_eq]
    constructor
    · rintro ⟨-, -, -, -, hov⟩
      exact (contextsOverlap_iff B1 B2).mp hov
    · intro hc
      exact ⟨hm2, hmode.symm, hsig.symm, by simp,
        (contextsOverlap_iff B1 B2).mpr hc⟩
  · unfold Registry.detect_conflicts
    rw [List.mem_filter]
    simp only [decide_eq_true_eq]
    constructor
    · rintro ⟨-, -, -, -, hov⟩
      rcases (contextsOverlap_iff B2 B1).mp hov with ⟨ha, hb⟩ | ⟨ha, hb, hq⟩
      · exact Or.inl ⟨hb, ha⟩
      · exact Or.inr ⟨hb, ha, by rw [pyDictBEq_symm]; exact hq⟩
    · intro hc
      refine ⟨hm1, hmode, hsig, by simp, (contextsOverlap_iff B2 B1).mpr ?_⟩
      rcases hc with ⟨ha, hb⟩ | ⟨ha, hb, hq⟩
      · exact Or.inl ⟨hb, ha⟩
      · exact Or.inr ⟨hb, ha, by rw [pyDictBEq_symm]; exact hq⟩

/-- C2 witness: two unguarded registered bindings with the same signature
are mutually reported by `detect_conflicts`. -/
theorem C2_conflicts_iff_guard_maps_equal_witness :
    let B1 : Binding :=
      ⟨"b1", "normal", ⟨[⟨"g", []⟩], 1000⟩, "act", "", [], [], 0⟩
    let B2 : Binding :=
      ⟨"b2", "normal", ⟨[⟨"g", []⟩], 1000⟩, "act", "", [], [], 0⟩
    let R : Registry :=
      ⟨[("act", ⟨"act", ""⟩)], [("b1", B1), ("b2", B2)], 2⟩
    B2 ∈ R.detect_conflicts B1 [] :=
  (C2_conflicts_iff_guard_maps_equal
      ⟨[("act", ⟨"act", ""⟩)],
        [("b1", ⟨"b1", "normal", ⟨[⟨"g", []⟩], 1000⟩, "act", "", [], [], 0⟩),
          ("b2", ⟨"b2", "normal", ⟨[⟨"g", []⟩], 1000⟩, "act", "", [], [], 0⟩)], 2⟩
      ⟨"b1", "normal", ⟨[⟨"g", []⟩], 1000⟩, "act", "", [], [], 0⟩
      ⟨"b2", "normal", ⟨[⟨"g", []⟩], 1000⟩, "act", "", [], [], 0⟩
      (by decide) (by decide) (by decide) rfl rfl).1.mpr
    (Or.inl ⟨rfl, rfl⟩)

theorem buildTrie_congr (R1 R2 : Registry) (m : String)
    (h : R1.bindings = R2.bindings) : buildTrie R1 m = buildTrie R2 m := by
  unfold buildTrie Registry.iter_bindings Registry.bindingList
  rw [h]

theorem applyOp_cases (R : Registry) (op : RegOp) :
    ((applyOp R op).bindings = R.bindings ∧
      (applyOp R op).revision = R.revision) ∨
    (applyOp R op).revision = R.revision + 1 := by
  cases op with
  | register_action a replace =>
    simp only [applyOp]
    unfold Registry.register_action
    split
    · exact Or.inl ⟨rfl, rfl⟩
    · exact Or.inl ⟨rfl, rfl⟩
  | register_binding b replace =>
    simp only [applyOp]
    unfold Registry.register_binding
    split
    · exact Or.inl ⟨rfl, rfl⟩
    · dsimp only
      split
      · exact Or.inl ⟨rfl, rfl⟩
      · split
        · exact Or.inr rfl
        · split
          · exact Or.inl ⟨rfl, rfl⟩
          · exact Or.inr rfl
  | unregister_binding id =>
    simp only [applyOp]
    unfold Registry.unregister_binding
    split
    · exact Or.inl ⟨rfl, rfl⟩
    · exact Or.inr rfl
  | update_binding id ch =>
    simp only [applyOp]
    unfold Registry.update_binding
    split
    · exact Or.inl ⟨rfl, rfl⟩
    · dsimp only
      split
      · exact Or.inl ⟨rfl, rfl⟩
      · split
        · exact Or.inl ⟨rfl, rfl⟩
        · exact Or.inr rfl
  | override_timeouts t m ids =>
    simp only [applyOp]
    unfold Registry.override_sequence_timeouts
    split
    · exact Or.inl ⟨rfl, rfl⟩
    · dsimp only
      split
      · exact Or.inl ⟨rfl, rfl⟩
      · split
        · exact Or.inl ⟨rfl, rfl⟩
        · exact Or.inr rfl

theorem cacheOk_empty : cacheOk Registry.empty ResolverState.empty := by
  intro m rev trie h
  simp [ResolverState.empty, List.lookup] at h

theorem cacheOk_applyOp (R : Registry) (rs : ResolverState) (op : RegOp)
    (h : cacheOk R rs) : cacheOk (applyOp R op) rs := by
  intro m rev trie hm
  obtain ⟨hle, heq⟩ := h m rev trie hm
  rcases applyOp_cases R op with ⟨hb, hr⟩ | hr
  · rw [hr]
    exact ⟨hle, fun he => (heq he).trans (buildTrie_congr R (applyOp R op) m hb.symm)⟩
  · rw [hr]
    exact ⟨by omega, fun he => absurd he (by omega)⟩

theorem ensureTrie_spec (R : Registry) (rs : ResolverState) (m : String)
    (h : cacheOk R rs) :
    (ensureTrie R rs m).1 = buildTrie R m ∧
      cacheOk R (ensureTrie R rs m).2 := by
  have hset : cacheOk R ⟨dictSet rs.cache m (R.revision, buildTrie R m)⟩ := by
    intro m2 rev trie hm2
    by_cases hmm : m2 = m
    · subst hmm
      rw [show (⟨dictSet rs.cache m2 (R.revision, buildTrie R m2)⟩ :
          ResolverState).cache = dictSet rs.cache m2
            (R.revision, buildTrie R m2) from rfl, lookup_dictSet_self] at hm2
      injection hm2 with h2
      injection h2 with h3 h4
      subst h3
      subst h4
      exact ⟨le_refl _, fun _ => rfl⟩
    · rw [show (⟨dictSet rs.cache m (R.revision, buildTrie R m)⟩ :
          ResolverState).cache = dictSet rs.cache m
            (R.revision, buildTrie R m) from rfl,
        lookup_dictSet_ne _ _ _ _ hmm] at hm2
      exact h m2 rev trie hm2
  unfold ensureTrie
  cases hm : rs.cache.lookup m with
  | none => exact ⟨rfl, hset⟩
  | some p =>
    obtain ⟨rev0, trie0⟩ := p
    dsimp only
    split
    · rename_i he
      exact ⟨(h m rev0 trie0 hm).2 he, h⟩
    · exact ⟨rfl, hset⟩

theorem runEvents_cacheOk (evs : List EngineEvent) :
    ∀ (R : Registry) (rs : ResolverState), cacheOk R rs →
      cacheOk (runEvents evs (R, rs)).1 (runEvents evs (R, rs)).2 := by
  induction evs with
  | nil => intro R rs h; exact h
  | cons ev rest ih =>
    intro R rs h
    cases ev with
    | mutate op => exact ih _ _ (cacheOk_applyOp R rs op h)
    | doResolve m toks ctx => exact ih _ _ (ensureTrie_spec R rs m h).2

/-- C9: the caching resolver refines the from-scratch resolver. After any
session of registry mutations and resolve calls starting from a fresh
registry and resolver, a resolve through the revision-checked cache
returns exactly what a resolver that rebuilds the mode trie from the
current registry from scratch returns — no explicit cache clear is ever
needed; and every registry call that changes the binding table increments
the revision (the sole invalidation signal). -/
theorem C9_cached_resolver_refines_scratch :
    (∀ (evs : List EngineEvent) (m : String) (toks : List String)
        (ctx : List (String × Bool)),
      (resolveCached (runEvents evs (Registry.empty, ResolverState.empty)).1
          (runEvents evs (Registry.empty, ResolverState.empty)).2
          m toks ctx).1 =
        resolveFromScratch
          (runEvents evs (Registry.empty, ResolverState.empty)).1
          m toks ctx) ∧
    (∀ (R : Registry) (op : RegOp),
      (applyOp R op).bindings ≠ R.bindings →
      (applyOp R op).revision = R.revision + 1) := by
  constructor
  · intro evs m toks ctx
    have h := runEvents_cacheOk evs Registry.empty ResolverState.empty
      cacheOk_empty
    have hs := ensureTrie_spec (runEvents evs (Registry.empty,
      ResolverState.empty)).1 (runEvents evs (Registry.empty,
      ResolverState.empty)).2 m h
    unfold resolveCached resolveFromScratch
    dsimp only
    rw [hs.1]
  · intro R op hne
    rcases applyOp_cases R op with ⟨hb, -⟩ | hr
    · exact absurd hb hne
    · exact hr

/-- C9 witness: registering a binding changes the table and bumps the
revision by one. -/
theorem C9_cached_resolver_refines_scratch_witness :
    let R0 : Registry := ⟨[("act", ⟨"act", ""⟩)], [], 0⟩
    let op0 : RegOp := .register_binding
      ⟨"b1", "normal", ⟨[⟨"g", []⟩], 1000⟩, "act", "", [], [], 0⟩ false
    (applyOp R0 op0).bindings ≠ R0.bindings ∧
    (applyOp R0 op0).revision = R0.revision + 1 :=
  ⟨by decide,
    C9_cached_resolver_refines_scratch.2 ⟨[("act", ⟨"act", ""⟩)], [], 0⟩
      (.register_binding
        ⟨"b1", "normal", ⟨[⟨"g", []⟩], 1000⟩, "act", "", [], [], 0⟩ false)
      (by decide)⟩

theorem not_cr_of_not_boundary (c : Char) (hb : isLineBoundary c = false) :
    c ≠ '\r' := by
  intro h
  subst h
  simp [isLineBoundary] at hb

theorem splitlinesGo_cons_other (c : Char) (t acc : List Char)
    (hb : isLineBoundary c = false) :
    splitlinesGo acc (c :: t) = splitlinesGo (c :: acc) t := by
  have h2 := not_cr_of_not_boundary c hb
  cases t with
  | nil => simp [splitlinesGo, hb]
  | cons c2 t2 => simp [splitlinesGo, h2, hb]

theorem splitlinesGo_boundary (c : Char) (t acc : List Char)
    (hb : isLineBoundary c = true) (hr : c ≠ '\r') :
    splitlinesGo acc (c :: t) =
      acc.reverse :: (if t = [] then [] else splitlinesGo [] t) := by
  cases t with
  | nil => simp [splitlinesGo, hb]
  | cons c2 t2 => simp [splitlinesGo, hr, hb]

theorem splitlinesGo_lf (acc t : List Char) :
    splitlinesGo acc ('\n' :: t) =
      acc.reverse :: (if t = [] then [] else splitlinesGo [] t) :=
  splitlinesGo_boundary '\n' t acc (by decide) (by decide)

theorem splitlinesGo_ne_nil :
    ∀ (s acc : List Char), splitlinesGo acc s ≠ [] := by
  intro s
  induction s with
  | nil => intro acc; simp [splitlinesGo]
  | cons c t ih =>
    intro acc
    by_cases h2 : c = '\r'
    · subst h2
      cases t with
      | nil => simp [splitlinesGo, isLineBoundary]
      | cons c2 t2 =>
        by_cases h3 : c2 = '\n'
        · subst h3
          cases t2 with
          | nil => simp [splitlinesGo]
          | cons c3 t3 => simp [splitlinesGo]
        · simp [splitlinesGo, h3, isLineBoundary]
    · by_cases hb : isLineBoundary c = true
      · rw [splitlinesGo_boundary c t acc hb h2]
        simp
      · rw [splitlinesGo_cons_other c t acc (by
          cases h : isLineBoundary c
          · rfl
          · exact absurd h hb)]
        exact ih _

theorem splitlinesGo_append_line :
    ∀ (l acc s : List Char), lineOk l →
      splitlinesGo acc (l ++ s) = splitlinesGo (l.reverse ++ acc) s := by
  intro l
  induction l with
  | nil => intro acc s _; simp
  | cons c l2 ih =>
    intro acc s hl
    rw [List.cons_append,
      splitlinesGo_cons_other c _ acc (hl c (by simp)),
      ih (c :: acc) s (fun x hx => hl x (List.mem_cons_of_mem _ hx))]
    congr 1
    simp

theorem splitlines_eq_go (t : List Char) (h : t ≠ []) :
    splitlines t = splitlinesGo [] t := by
  cases t with
  | nil => exact absurd rfl h
  | cons c t2 => rfl

theorem splitlines_single (t : List Char) (h : lineOk t) (hne : t ≠ []) :
    splitlines t = [t] := by
  rw [splitlines_eq_go t hne]
  have h2 := splitlinesGo_append_line t [] [] h
  simp only [List.append_nil] at h2
  rw [h2]
  simp [splitlinesGo]

theorem splitlines_ne_nil (t : List Char) (h : t ≠ []) :
    splitlines t ≠ [] := by
  rw [splitlines_eq_go t h]
  exact splitlinesGo_ne_nil t []

theorem flattenLines_nil : flattenLines [] = [] := rfl

theorem flattenLines_single (l : List Char) : flattenLines [l] = l := by
  simp [flattenLines, List.intercalate]

theorem flattenLines_cons (l : List Char) (L : List (List Char)) (h : L ≠ []) :
    flattenLines (l :: L) = l ++ '\n' :: flattenLines L := by
  cases L with
  | nil => exact absurd rfl h
  | cons l2 L2 =>
    simp [flattenLines, List.intercalate, List.intersperse]

theorem lineOk_not_nl (l : List Char) (h : lineOk l) : '\n' ∉ l := by
  intro hm
  have := h '\n' hm
  simp [isLineBoundary] at this

theorem lineOk_of_onlyLF_not_nl (l : List Char) (h1 : onlyLFBoundaries l)
    (h2 : '\n' ∉ l) : lineOk l := by
  intro c hc
  cases hbc : isLineBoundary c with
  | false => rfl
  | true =>
    have hceq := h1 c hc hbc
    subst hceq
    exact absurd hc h2

theorem lineOk_reverse (acc : List Char)
    (h : ∀ c ∈ acc, isLineBoundary c = false) : lineOk acc.reverse :=
  fun c hm => h c (List.mem_reverse.mp hm)

theorem splitlinesGo_ok :
    ∀ (n : Nat) (s acc : List Char), s.length ≤ n →
      (∀ c ∈ acc, isLineBoundary c = false) →
      ∀ l ∈ splitlinesGo acc s, lineOk l := by
  intro n
  induction n with
  | zero =>
    intro s acc hlen hacc l hl
    have hs : s = [] := List.length_eq_zero.mp (Nat.le_zero.mp hlen)
    subst hs
    simp [splitlinesGo] at hl
    subst hl
    exact lineOk_reverse acc hacc
  | succ n ih =>
    intro s acc hlen hacc l hl
    cases s with
    | nil =>
      simp [splitlinesGo] at hl
      subst hl
      exact lineOk_reverse acc hacc
    | cons c t =>
      simp only [List.length_cons, Nat.succ_le_succ_iff] at hlen
      by_cases h2 : c = '\r'
      · subst h2
        cases t with
        | nil =>
          simp [splitlinesGo, isLineBoundary] at hl
          subst hl
          exact lineOk_reverse acc hacc
        | cons c2 t2 =>
          by_cases h3 : c2 = '\n'
          · subst h3
            cases t2 with
            | nil =>
              simp [splitlinesGo] at hl
              subst hl
              exact lineOk_reverse acc hacc
            | cons c3 t3 =>
              rw [show splitlinesGo acc ('\r' :: '\n' :: c3 :: t3) =
                  acc.reverse :: splitlinesGo [] (c3 :: t3) from by
                simp [splitlinesGo]] at hl
              rcases List.mem_cons.mp hl with rfl | hl2
              · exact lineOk_reverse acc hacc
              · exact ih (c3 :: t3) [] (by simp at hlen ⊢; omega)
                  (by simp) l hl2
          · rw [show splitlinesGo acc ('\r' :: c2 :: t2) =
                acc.reverse :: splitlinesGo [] (c2 :: t2) from by
              simp [splitlinesGo, h3, isLineBoundary]] at hl
            rcases List.mem_cons.mp hl with rfl | hl2
            · exact lineOk_reverse acc hacc
            · exact ih (c2 :: t2) [] hlen (by simp) l hl2
      · by_cases hb : isLineBoundary c = true
        · rw [splitlinesGo_boundary c t acc hb h2] at hl
          rcases List.mem_cons.mp hl with rfl | hl2
          · exact lineOk_reverse acc hacc
          · split at hl2
            · simp at hl2
            · exact ih t [] hlen (by simp) l hl2
        · have hbf : isLineBoundary c = false := by
            cases h : isLineBoundary c with
            | false => rfl
            | true => exact absurd h hb
          rw [splitlinesGo_cons_other c t acc hbf] at hl
          exact ih t (c :: acc) hlen
            (by
              intro ch hch
              rcases List.mem_cons.mp hch with rfl | hch2
              · exact hbf
              · exact hacc ch hch2) l hl

theorem splitlines_ok (t : List Char) : ∀ l ∈ splitlines t, lineOk l := by
  cases t with
  | nil => simp [splitlines]
  | cons c t2 =>
    exact splitlinesGo_ok (c :: t2).length (c :: t2) [] (le_refl _) (by simp)

theorem from_text_lines_ne_nil (t : List Char) :
    (BufferDocument.from_text t).lines ≠ [] := by
  unfold BufferDocument.from_text
  dsimp only
  split
  · simp
  · split
    · simp
    · rename_i h1 _
      exact h1

theorem from_text_lines_ok (t : List Char) :
    ∀ l ∈ (BufferDocument.from_text t).lines, lineOk l := by
  unfold BufferDocument.from_text
  dsimp only
  intro l hl
  split at hl
  · simp at hl
    subst hl
    simp [lineOk]
  · split at hl
    · rcases List.mem_append.mp hl with h | h
      · exact splitlines_ok t l h
      · simp at h
        subst h
        simp [lineOk]
    · exact splitlines_ok t l hl

theorem from_text_docLinesOk (t : List Char) :
    docLinesOk (BufferDocument.from_text t).lines :=
  ⟨from_text_lines_ne_nil t, from_text_lines_ok t⟩

theorem mem_of_getLastQ : ∀ (l : List Char) (a : Char),
    l.getLast? = some a → a ∈ l := by
  intro l
  induction l with
  | nil => intro a h; simp at h
  | cons c t ih =>
    intro a h
    cases t with
    | nil => simp at h; simp [h]
    | cons c2 t2 =>
      rw [List.getLast?_cons_cons] at h
      exact List.mem_cons_of_mem _ (ih a h)

theorem exists_lf_split : ∀ (t : List Char), '\n' ∈ t →
    ∃ a b, t = a ++ '\n' :: b ∧ '\n' ∉ a := by
  intro t h
  induction t with
  | nil => simp at h
  | cons c t2 ih =>
    by_cases hc : c = '\n'
    · exact ⟨[], t2, by rw [hc]; rfl, by simp⟩
    · have h2 : '\n' ∈ t2 := by
        rcases List.mem_cons.mp h with he | hm
        · exact absurd he.symm hc
        · exact hm
      obtain ⟨a, b, hab, hna⟩ := ih h2
      refine ⟨c :: a, b, by rw [List.cons_append, ← hab], ?_⟩
      intro hm
      rcases List.mem_cons.mp hm with he | hm2
      · exact hc he.symm
      · exact hna hm2

theorem fromText_flatten_aux :
    ∀ (n : Nat) (t : List Char), t.length ≤ n → onlyLFBoundaries t →
      flattenLines (BufferDocument.from_text t).lines = t := by
  intro n
  induction n with
  | zero =>
    intro t hlen _
    have ht : t = [] := List.length_eq_zero.mp (Nat.le_zero.mp hlen)
    subst ht
    decide
  | succ n ih =>
    intro t hlen hcr
    by_cases hmem : '\n' ∈ t
    · obtain ⟨a, b, rfl, hna⟩ := exists_lf_split t hmem
      have honlyA : onlyLFBoundaries a := fun c hc hbc =>
        hcr c (List.mem_append.mpr (Or.inl hc)) hbc
      have hcrb : onlyLFBoundaries b := fun c hc hbc =>
        hcr c (List.mem_append.mpr (Or.inr (List.mem_cons_of_mem _ hc))) hbc
      have hlOka : lineOk a := lineOk_of_onlyLF_not_nl a honlyA hna
      have htne : a ++ '\n' :: b ≠ [] := by simp
      cases hb : b with
      | nil =>
        subst hb
        have hsplit : splitlines (a ++ ['\n']) = [a] := by
          rw [splitlines_eq_go _ htne,
            splitlinesGo_append_line a [] ['\n'] hlOka, splitlinesGo_lf]
          simp
        unfold BufferDocument.from_text
        dsimp only
        rw [hsplit]
        rw [if_neg (by simp)]
        rw [if_pos (by unfold endsWithLF; rw [List.getLast?_concat]; simp)]
        rw [show [a] ++ [[]] = [a, []] from rfl,
          flattenLines_cons a [[]] (by simp), flattenLines_single]
      | cons c rest =>
        have hbne : b ≠ [] := by rw [hb]; simp
        rw [← hb]
        have hsplit : splitlines (a ++ '\n' :: b) = a :: splitlines b := by
          rw [splitlines_eq_go _ htne,
            splitlinesGo_append_line a [] ('\n' :: b) hlOka, splitlinesGo_lf,
            if_neg hbne, ← splitlines_eq_go b hbne]
          simp
        have hlast : endsWithLF (a ++ '\n' :: b) = endsWithLF b := by
          unfold endsWithLF
          rw [List.getLast?_append_of_ne_nil a (by simp),
            show ('\n' :: b) = ['\n'] ++ b from rfl,
            List.getLast?_append_of_ne_nil ['\n'] hbne]
        have hblen : b.length ≤ n := by
          simp at hlen
          omega
        have hih := ih b hblen hcrb
        have hlines : (BufferDocument.from_text (a ++ '\n' :: b)).lines =
            a :: (BufferDocument.from_text b).lines := by
          unfold BufferDocument.from_text
          dsimp only
          rw [hsplit, hlast]
          rw [if_neg (by simp), if_neg (splitlines_ne_nil b hbne)]
          by_cases hend : endsWithLF b = true
          · rw [if_pos hend, if_pos hend]
            rfl
          · rw [if_neg hend, if_neg hend]
        rw [hlines,
          flattenLines_cons a _ (from_text_lines_ne_nil b), hih]
    · by_cases ht : t = []
      · subst ht
        decide
      · have hlOk : lineOk t := lineOk_of_onlyLF_not_nl t hcr hmem
        have hlines : (BufferDocument.from_text t).lines = [t] := by
          unfold BufferDocument.from_text
          dsimp only
          rw [splitlines_single t hlOk ht]
          rw [if_neg (by simp)]
          rw [if_neg (by
            unfold endsWithLF
            intro hlf
            exact hmem (mem_of_getLastQ t '\n' (of_decide_eq_true hlf)))]
        rw [hlines, flattenLines_single]

theorem fromText_flatten (t : List Char) (h : onlyLFBoundaries t) :
    flattenLines (BufferDocument.from_text t).lines = t :=
  fromText_flatten_aux t.length t (le_refl _) h

theorem flatten_onlyLF : ∀ (L : List (List Char)),
    (∀ l ∈ L, lineOk l) → onlyLFBoundaries (flattenLines L) := by
  intro L
  induction L with
  | nil =>
    intro _ c hc
    simp [flattenLines_nil] at hc
  | cons l L2 ih =>
    intro h
    cases L2 with
    | nil =>
      rw [flattenLines_single]
      intro c hc hbc
      rw [h l (by simp) c hc] at hbc
      exact Bool.noConfusion hbc
    | cons l2 L3 =>
      rw [flattenLines_cons l (l2 :: L3) (by simp)]
      intro c hc hbc
      rcases List.mem_append.mp hc with h1 | h2
      · rw [h l (by simp) c h1] at hbc
        exact Bool.noConfusion hbc
      · rcases List.mem_cons.mp h2 with he | h3
        · exact he
        · exact ih (fun x hx => h x (List.mem_cons_of_mem _ hx)) c h3 hbc

theorem flattenLines_cons_length (l : List Char) (L : List (List Char))
    (h : L ≠ []) :
    (flattenLines (l :: L)).length = l.length + 1 + (flattenLines L).length := by
  rw [flattenLines_cons l L h]
  simp
  omega

theorem cursorFromOffsetN_spec :
    ∀ (L : List (List Char)), L ≠ [] → ∀ o, o ≤ (flattenLines L).length →
      (cursorFromOffsetN L o).1 < L.length ∧
      (cursorFromOffsetN L o).2 ≤ (L.getD (cursorFromOffsetN L o).1 []).length ∧
      offsetForCursorN L (cursorFromOffsetN L o).1 (cursorFromOffsetN L o).2
        = o := by
  intro L
  induction L with
  | nil => intro h; exact absurd rfl h
  | cons l L2 ih =>
    intro _ o ho
    unfold cursorFromOffsetN
    split
    · rename_i hol
      exact ⟨by simp, by simpa using hol, rfl⟩
    · rename_i hol
      cases L2 with
      | nil =>
        exfalso
        rw [flattenLines_single] at ho
        omega
      | cons l2 L3 =>
        have hlen : o - (l.length + 1) ≤ (flattenLines (l2 :: L3)).length := by
          rw [flattenLines_cons_length l (l2 :: L3) (by simp)] at ho
          omega
        obtain ⟨ha, hb, hc⟩ := ih (by simp) (o - (l.length + 1)) hlen
        dsimp only
        refine ⟨by simpa using ha, by simpa using hb, ?_⟩
        show l.length + 1 + offsetForCursorN (l2 :: L3)
          (cursorFromOffsetN (l2 :: L3) (o - (l.length + 1))).1
          (cursorFromOffsetN (l2 :: L3) (o - (l.length + 1))).2 = o
        rw [hc]
        omega

theorem offsetForCursorN_le :
    ∀ (L : List (List Char)) (r c : Nat), r < L.length →
      c ≤ (L.getD r []).length →
      offsetForCursorN L r c ≤ (flattenLines L).length := by
  intro L
  induction L with
  | nil => intro r c hr; simp at hr
  | cons l L2 ih =>
    intro r c hr hc
    cases r with
    | zero =>
      have hcl : c ≤ l.length := by simpa using hc
      show c ≤ _
      cases L2 with
      | nil => rw [flattenLines_single]; exact hcl
      | cons l2 L3 =>
        rw [flattenLines_cons_length l _ (by simp)]
        omega
    | succ r2 =>
      cases L2 with
      | nil => simp at hr
      | cons l2 L3 =>
        have := ih r2 c (by simpa using hr) (by simpa using hc)
        rw [flattenLines_cons_length l _ (by simp)]
        show l.length + 1 + offsetForCursorN (l2 :: L3) r2 c ≤ _
        omega

theorem offsetForCursorN_lt :
    ∀ (L : List (List Char)) (r1 c1 r2 c2 : Nat),
      r1 < L.length → c1 ≤ (L.getD r1 []).length →
      r2 < L.length → c2 ≤ (L.getD r2 []).length →
      (r1 < r2 ∨ (r1 = r2 ∧ c1 < c2)) →
      offsetForCursorN L r1 c1 < offsetForCursorN L r2 c2 := by
  intro L
  induction L with
  | nil => intro r1 c1 r2 c2 h1; simp at h1
  | cons l L2 ih =>
    intro r1 c1 r2 c2 h1 h2 h3 h4 hlt
    cases r1 with
    | zero =>
      cases r2 with
      | zero =>
        rcases hlt with h | ⟨-, h⟩
        · omega
        · exact h
      | succ r2p =>
        have hcl : c1 ≤ l.length := by simpa using h2
        show c1 < l.length + 1 + offsetForCursorN L2 r2p c2
        omega
    | succ r1p =>
      cases r2 with
      | zero => rcases hlt with h | ⟨h, -⟩ <;> omega
      | succ r2p =>
        cases L2 with
        | nil => simp at h1
        | cons l2 L3 =>
          have hrec := ih r1p c1 r2p c2 (by simpa using h1)
            (by simpa using h2) (by simpa using h3) (by simpa using h4)
            (by rcases hlt with h | ⟨h, hcc⟩
                · exact Or.inl (by omega)
                · exact Or.inr ⟨by omega, hcc⟩)
          show l.length + 1 + _ < l.length + 1 + _
          omega

theorem take_eq_imp_getQ_eq {α : Type} (x y : List α) (k i : Nat)
    (h : x.take k = y.take k) (hi : i < k) : x.get? i = y.get? i := by
  rw [← List.get?_take hi (l := x), h, List.get?_take hi]

theorem flat_cons_getQ_left (l : List Char) (L : List (List Char)) (i : Nat)
    (h : i < l.length) :
    (flattenLines (l :: L)).get? i = l.get? i := by
  cases L with
  | nil => rw [flattenLines_single]
  | cons l2 L3 =>
    rw [flattenLines_cons l _ (by simp)]
    exact List.get?_append h

theorem flat_cons_getQ_nl (l : List Char) (L : List (List Char))
    (h : L ≠ []) :
    (flattenLines (l :: L)).get? l.length = some '\n' := by
  rw [flattenLines_cons l L h]
  rw [List.get?_append_right (le_refl _)]
  simp

theorem flat_cons_drop (l : List Char) (L : List (List Char)) (h : L ≠ []) :
    (flattenLines (l :: L)).drop (l.length + 1) = flattenLines L := by
  rw [flattenLines_cons l L h]
  rw [show l ++ '\n' :: flattenLines L = (l ++ ['\n']) ++ flattenLines L by simp]
  rw [show l.length + 1 = (l ++ ['\n']).length by simp]
  exact List.drop_left _ _

theorem offset_prefix_transfer :
    ∀ (r : Nat) (L1 L2 : List (List Char)) (k c : Nat),
      L1 ≠ [] → L2 ≠ [] →
      (∀ l ∈ L1, lineOk l) → (∀ l ∈ L2, lineOk l) →
      k ≤ (flattenLines L1).length → k ≤ (flattenLines L2).length →
      (flattenLines L1).take k = (flattenLines L2).take k →
      r < L1.length → c ≤ (L1.getD r []).length →
      offsetForCursorN L1 r c ≤ k →
      r < L2.length ∧ c ≤ (L2.getD r []).length ∧
        offsetForCursorN L2 r c = offsetForCursorN L1 r c := by
  intro r
  induction r with
  | zero =>
    intro L1 L2 k c hn1 hn2 hok1 hok2 hk1 hk2 htake hr hc hoff
    obtain ⟨l1, L1p, rfl⟩ : ∃ l1 L1p, L1 = l1 :: L1p := by
      cases L1 with
      | nil => exact absurd rfl hn1
      | cons a b => exact ⟨a, b, rfl⟩
    obtain ⟨l2, L2p, rfl⟩ : ∃ l2 L2p, L2 = l2 :: L2p := by
      cases L2 with
      | nil => exact absurd rfl hn2
      | cons a b => exact ⟨a, b, rfl⟩
    have hcl1 : c ≤ l1.length := by simpa using hc
    have hoffc : offsetForCursorN (l1 :: L1p) 0 c = c := rfl
    rw [hoffc] at hoff
    have hcl2 : c ≤ l2.length := by
      by_contra hgt
      push_neg at hgt
      cases L2p with
      | nil =>
        rw [flattenLines_single] at hk2
        omega
      | cons l2b L2q =>
        have hnl2 : (flattenLines (l2 :: l2b :: L2q)).get? l2.length =
            some '\n' := flat_cons_getQ_nl l2 _ (by simp)
        have hleft : (flattenLines (l1 :: L1p)).get? l2.length =
            l1.get? l2.length := flat_cons_getQ_left l1 _ _ (by omega)
        have heq := take_eq_imp_getQ_eq _ _ k l2.length htake (by omega)
        rw [hleft, hnl2] at heq
        exact lineOk_not_nl l1 (hok1 l1 (by simp)) (List.get?_mem heq)
    exact ⟨by simp, by simpa using hcl2, rfl⟩
  | succ rp ih =>
    intro L1 L2 k c hn1 hn2 hok1 hok2 hk1 hk2 htake hr hc hoff
    obtain ⟨l1, L1p, rfl⟩ : ∃ l1 L1p, L1 = l1 :: L1p := by
      cases L1 with
      | nil => exact absurd rfl hn1
      | cons a b => exact ⟨a, b, rfl⟩
    obtain ⟨l2, L2p, rfl⟩ : ∃ l2 L2p, L2 = l2 :: L2p := by
      cases L2 with
      | nil => exact absurd rfl hn2
      | cons a b => exact ⟨a, b, rfl⟩
    have hn1p : L1p ≠ [] := by
      intro hemp
      rw [hemp] at hr
      simp at hr
    have hoffc : offsetForCursorN (l1 :: L1p) (rp + 1) c =
        l1.length + 1 + offsetForCursorN L1p rp c := rfl
    rw [hoffc] at hoff
    have hkl1 : l1.length + 1 ≤ k := by omega
    have hnl1 : (flattenLines (l1 :: L1p)).get? l1.length = some '\n' :=
      flat_cons_getQ_nl l1 _ hn1p
    have hn2p : L2p ≠ [] := by
      intro hemp
      subst hemp
      have heq := take_eq_imp_getQ_eq _ _ k l1.length htake (by omega)
      rw [hnl1, flattenLines_single] at heq
      exact lineOk_not_nl l2 (hok2 l2 (by simp)) (List.get?_mem heq.symm)
    have hnl2 : (flattenLines (l2 :: L2p)).get? l2.length = some '\n' :=
      flat_cons_getQ_nl l2 _ hn2p
    have hl12 : l1.length = l2.length := by
      rcases Nat.lt_trichotomy l1.length l2.length with h | h | h
      · exfalso
        have hleft : (flattenLines (l2 :: L2p)).get? l1.length =
            l2.get? l1.length := flat_cons_getQ_left l2 _ _ h
        have heq := take_eq_imp_getQ_eq _ _ k l1.length htake (by omega)
        rw [hnl1, hleft] at heq
        exact lineOk_not_nl l2 (hok2 l2 (by simp)) (List.get?_mem heq.symm)
      · exact h
      · exfalso
        have hleft : (flattenLines (l1 :: L1p)).get? l2.length =
            l1.get? l2.length := flat_cons_getQ_left l1 _ _ h
        have heq := take_eq_imp_getQ_eq _ _ k l2.length htake (by omega)
        rw [hleft, hnl2] at heq
        exact lineOk_not_nl l1 (hok1 l1 (by simp)) (List.get?_mem heq)
    have hlen1 : (flattenLines (l1 :: L1p)).length =
        l1.length + 1 + (flattenLines L1p).length :=
      flattenLines_cons_length l1 L1p hn1p
    have hlen2 : (flattenLines (l2 :: L2p)).length =
        l2.length + 1 + (flattenLines L2p).length :=
      flattenLines_cons_length l2 L2p hn2p
    have hdrop1 : (flattenLines (l1 :: L1p)).drop (l1.length + 1) =
        flattenLines L1p := flat_cons_drop l1 L1p hn1p
    have hdrop2 : (flattenLines (l2 :: L2p)).drop (l2.length + 1) =
        flattenLines L2p := flat_cons_drop l2 L2p hn2p
    have htake2 : (flattenLines L1p).take (k - (l1.length + 1)) =
        (flattenLines L2p).take (k - (l1.length + 1)) := by
      rw [← hdrop1, ← hdrop2, ← hl12]
      rw [List.take_drop, List.take_drop]
      rw [show l1.length + 1 + (k - (l1.length + 1)) = k from by omega]
      rw [htake]
    obtain ⟨ha, hb, hcq⟩ := ih L1p L2p (k - (l1.length + 1)) c hn1p hn2p
      (fun l hl => hok1 l (List.mem_cons_of_mem _ hl))
      (fun l hl => hok2 l (List.mem_cons_of_mem _ hl))
      (by omega) (by rw [hl12] at hkl1 ⊢; omega) htake2
      (by simpa using hr) (by simpa using hc) (by omega)
    refine ⟨by simpa using ha, by simpa using hb, ?_⟩
    show l2.length + 1 + offsetForCursorN L2p rp c =
      l1.length + 1 + offsetForCursorN L1p rp c
    rw [hcq, hl12]

/-- C3 counterexample: inserting a carriage return. `from_text` normalizes
`\r` into a line boundary, and the flattened document joins lines with
`\n`, so reading the replaced range back yields a newline, not the
inserted text. -/
theorem C3_carriage_return_breaks_round_trip :
    let b := Buffer.from_text ("x".toList)
    let r := b.replace_range (0, 0) (0, 0) ['\r'] "t"
    validCursor b.document (0, 0) ∧
    r.1 = .ok ⟨0, ['\r', 'x'], (1, 0), none, "t"⟩ ∧
    r.2.get_text_range (0, 0) (1, 0) = .ok ['\n'] ∧
    ['\n'] ≠ ['\r'] := by
  decide

/-- C3 amended: the round trip holds for every replacement text whose only
line-boundary characters are `\n` (none of `\r`, `\x0b`, `\x0c`,
`\x1c`-`\x1e`, `\x85`, U+2028, U+2029). For every buffer whose document
lines are boundary-free (as `from_text` produces), every pair of in-bounds
cursors start ≤ end, and every such text, `replace_range(start, end, text)`
succeeds and `get_text_range` from `start` to the post-edit cursor (the
position of character offset `offset(start) + len(text)`) returns `text`
exactly. -/
theorem C3_replace_then_get_round_trip
    (b : Buffer) (start stop : Cursor) (text : List Char) (label : String)
    (hdoc : docLinesOk b.document.lines)
    (hs : validCursor b.document start)
    (he : validCursor b.document stop)
    (_hle : cursorLt stop start = false)
    (htext : onlyLFBoundaries text) :
    ∃ d b2, b.replace_range start stop text label = (.ok d, b2) ∧
      b2.get_text_range start d.cursor = .ok text := by
  obtain ⟨hLne, hLok⟩ := hdoc
  obtain ⟨hs0, hs1, hs2, hs3⟩ := hs
  obtain ⟨he0, he1, he2, he3⟩ := he
  have hsv : validCursor b.document start := ⟨hs0, hs1, hs2, hs3⟩
  have hev : validCursor b.document stop := ⟨he0, he1, he2, he3⟩
  have hrn : start.1.toNat < b.document.lines.length := by
    unfold BufferDocument.line_count at hs1
    omega
  have hcn : start.2.toNat ≤
      (b.document.lines.getD start.1.toNat []).length := by
    unfold BufferDocument.get_line at hs3
    omega
  have hrne : stop.1.toNat < b.document.lines.length := by
    unfold BufferDocument.line_count at he1
    omega
  have hcne : stop.2.toNat ≤
      (b.document.lines.getD stop.1.toNat []).length := by
    unfold BufferDocument.get_line at he3
    omega
  have hsoB : offsetForCursor b.document start ≤
      (flattenLines b.document.lines).length :=
    offsetForCursorN_le _ _ _ hrn hcn
  have heoB : offsetForCursor b.document stop ≤
      (flattenLines b.document.lines).length :=
    offsetForCursorN_le _ _ _ hrne hcne
  set B := flattenLines b.document.lines with hB
  set so := offsetForCursor b.document start with hso
  set eo := offsetForCursor b.document stop with heo
  set NT := B.take so ++ text ++ B.drop eo with hNT
  have hsoN : so =
      offsetForCursorN b.document.lines start.1.toNat start.2.toNat := rfl
  have hBcr : onlyLFBoundaries B := flatten_onlyLF _ hLok
  have hNTcr : onlyLFBoundaries NT := by
    intro c hc hbc
    rcases List.mem_append.mp hc with hc1 | hc2
    · rcases List.mem_append.mp hc1 with hc3 | hc4
      · exact hBcr c (List.take_subset _ _ hc3) hbc
      · exact htext c hc4 hbc
    · exact hBcr c (List.drop_subset _ _ hc2) hbc
  have htakelen : (B.take so).length = so := by
    rw [List.length_take]
    omega
  have hNTlen : NT.length = so + text.length + (B.length - eo) := by
    rw [hNT]
    simp only [List.length_append, List.length_drop]
    omega
  have hflat : flattenLines (BufferDocument.from_text NT).lines = NT :=
    fromText_flatten NT hNTcr
  have hL2ne : (BufferDocument.from_text NT).lines ≠ [] :=
    from_text_lines_ne_nil NT
  have hL2ok : ∀ l ∈ (BufferDocument.from_text NT).lines, lineOk l :=
    from_text_lines_ok NT
  have htakeNT : NT.take so = B.take so := by
    rw [hNT, List.append_assoc, List.take_append_eq_append_take,
      List.take_take]
    simp [htakelen]
  have htransfer := offset_prefix_transfer start.1.toNat
    b.document.lines (BufferDocument.from_text NT).lines so start.2.toNat
    hLne hL2ne hLok hL2ok hsoB
    (by rw [hflat, hNTlen]; omega)
    (by rw [hflat, htakeNT])
    hrn hcn (le_refl _)
  obtain ⟨hrn2, hcn2, hoff2⟩ := htransfer
  have ho2 : so + text.length ≤
      (flattenLines (BufferDocument.from_text NT).lines).length := by
    rw [hflat, hNTlen]
    omega
  have hcspec := cursorFromOffsetN_spec (BufferDocument.from_text NT).lines
    hL2ne (so + text.length) ho2
  obtain ⟨hp1, hp2, hp3⟩ := hcspec
  have hrr : ∃ d b2, b.replace_range start stop text label = (.ok d, b2) ∧
      b2.document = BufferDocument.from_text NT ∧
      d.cursor = cursorFromOffset (BufferDocument.from_text NT)
        (so + text.length) := by
    unfold Buffer.replace_range
    rw [(ensure_cursor_ok_iff _ _).mpr hsv, (ensure_cursor_ok_iff _ _).mpr hev]
    exact ⟨_, _, rfl, rfl, rfl⟩
  obtain ⟨d, b2, hrr, hdoc2, hcur⟩ := hrr
  refine ⟨d, b2, hrr, ?_⟩
  set p := cursorFromOffsetN (BufferDocument.from_text NT).lines
    (so + text.length) with hp
  have hcurp : d.cursor = ((p.1 : Int), (p.2 : Int)) := by
    rw [hcur]
    rfl
  have hvalid2 : validCursor b2.document start := by
    rw [hdoc2]
    refine ⟨hs0, ?_, hs2, ?_⟩
    · unfold BufferDocument.line_count
      omega
    · unfold BufferDocument.get_line
      omega
  have hvalidp : validCursor b2.document d.cursor := by
    rw [hdoc2, hcurp]
    refine ⟨by omega, ?_, by omega, ?_⟩
    · unfold BufferDocument.line_count
      simp only [Int.toNat_natCast]
      omega
    · unfold BufferDocument.get_line
      simp only [Int.toNat_natCast]
      omega
  have hnotlt : cursorLt d.cursor start = false := by
    rw [hcurp]
    apply decide_eq_false
    intro hlt
    have hnat : p.1 < start.1.toNat ∨
        (p.1 = start.1.toNat ∧ p.2 < start.2.toNat) := by
      rcases hlt with h | ⟨h1, h2⟩
      · left; omega
      · right; exact ⟨by omega, by omega⟩
    have := offsetForCursorN_lt (BufferDocument.from_text NT).lines
      p.1 p.2 start.1.toNat start.2.toNat hp1 hp2 hrn2 hcn2 hnat
    rw [hp3, hoff2] at this
    omega
  unfold Buffer.get_text_range
  rw [(ensure_cursor_ok_iff _ _).mpr hvalid2,
    (ensure_cursor_ok_iff _ _).mpr hvalidp]
  simp only [hnotlt, Bool.false_eq_true, if_false]
  have hoffstart : offsetForCursor b2.document start = so := by
    rw [hdoc2]
    exact hoff2
  have hoffcur : offsetForCursor b2.document d.cursor = so + text.length := by
    rw [hdoc2, hcurp]
    show offsetForCursorN _ ((p.1 : Int)).toNat ((p.2 : Int)).toNat = _
    simp only [Int.toNat_natCast]
    exact hp3
  rw [hoffstart, hoffcur]
  rw [show flattenLines b2.document.lines = NT from by rw [hdoc2, hflat]]
  have htk : NT.take (so + text.length) = B.take so ++ text := by
    rw [hNT, List.append_assoc, List.take_append_eq_append_take,
      List.take_take, htakelen]
    rw [show min (so + text.length) so = so from by omega]
    rw [show so + text.length - so = text.length from by omega]
    rw [List.take_append_eq_append_take, List.take_length]
    simp
  rw [htk]
  have hdropfin : List.drop so (List.take so B ++ text) = text := by
    have h := List.drop_left (List.take so B) text
    rw [htakelen] at h
    exact h
  rw [hdropfin]

/-- C3 witness: replacing a multi-line range of "hello\nworld" with "XY"
and reading it back. -/
theorem C3_replace_then_get_round_trip_witness :
    ∃ d b2, (Buffer.from_text ("hello\nworld".toList)).replace_range
        (0, 1) (1, 2) ("XY".toList) "t" = (.ok d, b2) ∧
      b2.get_text_range (0, 1) d.cursor = .ok ("XY".toList) :=
  C3_replace_then_get_round_trip (Buffer.from_text ("hello\nworld".toList))
    (0, 1) (1, 2) ("XY".toList) "t" (by decide) (by decide) (by decide)
    (by decide) (by decide)

end VimEngine
